import Mathlib

/-
Verification development for the loxide repository: a bytecode interpreter
for a class-free Lox dialect.  The repository's `src/main.rs` provides the
entry points (`main`, `repl`, `run_file`, `interpret`) and the test suite;
the interpreter core itself (modules `chunk`, `compile`, `native_fn`, `obj`,
`table`, `value`, `vm`) is declared in `main.rs` but its sources are not
present in the repository snapshot.  Those parts are modelled from the
specification, as noted on each definition.  Machine floats (f64) are
modelled by rational numbers, which is exact for every arithmetic operation
performed by the programs considered here (small-integer addition and
comparison).  Heap identity of interned strings is modelled by string
contents, which the spec guarantees coincide (two interned strings are
pointer-equal iff they are byte-identical).
-/

namespace Loxide

/-- Modelled from the spec: the `Number(f64)` payload.  Machine doubles are
modelled as exact fractions (an integer numerator over a natural
denominator, kept unnormalized); every arithmetic operation performed by
the programs considered in this development is small-integer arithmetic,
on which IEEE doubles are exact, so the model agrees with f64 there. -/
structure LoxNum where
  num : Int
  den : Nat
deriving DecidableEq, Repr

/-- Numeric value of a natural literal. -/
def LoxNum.ofNat (n : Nat) : LoxNum := ⟨n, 1⟩

def LoxNum.add (a b : LoxNum) : LoxNum := ⟨a.num * b.den + b.num * a.den, a.den * b.den⟩

def LoxNum.sub (a b : LoxNum) : LoxNum := ⟨a.num * b.den - b.num * a.den, a.den * b.den⟩

def LoxNum.mul (a b : LoxNum) : LoxNum := ⟨a.num * b.num, a.den * b.den⟩

/-- Division; a zero divisor yields the zero-denominator element standing
in for IEEE infinity (no claim exercises it). -/
def LoxNum.div (a b : LoxNum) : LoxNum :=
  if b.num < 0 then ⟨-(a.num * b.den), a.den * b.num.natAbs⟩
  else ⟨a.num * b.den, a.den * b.num.natAbs⟩

def LoxNum.neg (a : LoxNum) : LoxNum := ⟨-a.num, a.den⟩

/-- Numeric equality (cross-multiplied). -/
def LoxNum.numEq (a b : LoxNum) : Bool := a.num * b.den = b.num * a.den

def LoxNum.numLt (a b : LoxNum) : Bool := a.num * b.den < b.num * a.den

def LoxNum.numLe (a b : LoxNum) : Bool := a.num * b.den ≤ b.num * a.den

/-- Modelled from the spec: module `value` is absent from src/.  A runtime
value is a tagged scalar: number, boolean, nil, or heap reference (string,
closure, native function).  Interned strings are identified by contents;
closures and natives are identified by their index in the object heap,
giving the spec's identity semantics for `EQUAL`. -/
inductive Value where
  | number (n : LoxNum)
  | bool (b : Bool)
  | nil
  | str (s : String)
  | closure (cid : Nat)
  | native (nid : Nat)
deriving DecidableEq, Repr

/-- Modelled from the spec: truthiness — `nil` and `false` are falsey; every
other value is truthy. -/
def truthy : Value → Bool
  | .nil => false
  | .bool b => b
  | _ => true

/-! Scanner.  Modelled from the spec: module `compile` (scanner half) is
absent from src/.  Token kinds follow the spec's list. -/

inductive TokKind where
  | lparen | rparen | lbrace | rbrace | comma | dot | semicolon
  | plus | minus | star | slash
  | bang | bangEq | eq | eqEq | gt | ge | lt | le
  | ident | strLit | numLit
  | kAnd | kClass | kElse | kFalse | kFor | kFun | kIf | kNil | kOr
  | kPrint | kReturn | kSuper | kThis | kTrue | kVar | kWhile
  | errTok | eof
deriving DecidableEq, Repr

structure Token where
  kind : TokKind
  text : String
  line : Nat
deriving DecidableEq, Repr

/-- Keyword recognition (the spec's trie, extensionally). -/
def keywordKind (s : String) : TokKind :=
  if s = "and" then .kAnd else if s = "class" then .kClass
  else if s = "else" then .kElse else if s = "false" then .kFalse
  else if s = "for" then .kFor else if s = "fun" then .kFun
  else if s = "if" then .kIf else if s = "nil" then .kNil
  else if s = "or" then .kOr else if s = "print" then .kPrint
  else if s = "return" then .kReturn else if s = "super" then .kSuper
  else if s = "this" then .kThis else if s = "true" then .kTrue
  else if s = "var" then .kVar else if s = "while" then .kWhile
  else .ident

def isAlphaChar (c : Char) : Bool := c.isAlpha || c = '_'

def isDigitChar (c : Char) : Bool := c.isDigit

/-- Take a run of identifier characters. -/
def takeIdent : List Char → (List Char × List Char)
  | [] => ([], [])
  | c :: cs =>
    if isAlphaChar c || isDigitChar c then
      let (a, b) := takeIdent cs
      (c :: a, b)
    else ([], c :: cs)

/-- Take a run of digits. -/
def takeDigits : List Char → (List Char × List Char)
  | [] => ([], [])
  | c :: cs =>
    if isDigitChar c then
      let (a, b) := takeDigits cs
      (c :: a, b)
    else ([], c :: cs)

/-- Skip the rest of a `//` line comment. -/
def dropComment : List Char → List Char
  | [] => []
  | c :: cs => if c = '\n' then c :: cs else dropComment cs

/-- Scan a string literal body up to the closing quote.  Returns the
contents, the rest (after the closing quote) and the number of newlines
crossed; `none` contents means the string was unterminated. -/
def takeStr : List Char → (Option (List Char) × List Char × Nat)
  | [] => (none, [], 0)
  | c :: cs =>
    if c = '"' then (some [], cs, 0)
    else
      let (a, b, nl) := takeStr cs
      (a.map (c :: ·), b, nl + (if c = '\n' then 1 else 0))

def digitsToNat (ds : List Char) : Nat :=
  ds.foldl (fun acc c => acc * 10 + (c.toNat - 48)) 0

/-- A scanned number literal: integer part, optional fractional digits,
as an exact fraction (the spec's f64 literal values, modelled exactly). -/
def numOfDigits (intPart fracPart : List Char) : LoxNum :=
  ⟨digitsToNat intPart * 10 ^ fracPart.length + digitsToNat fracPart,
    10 ^ fracPart.length⟩

/-- The scanner loop.  Fuel is the remaining source length plus one; every
step consumes at least one character, so the fuel never runs out on the
initial call from `scanTokens`. -/
def scanLoop : Nat → List Char → Nat → List Token
  | 0, _, line => [⟨.eof, "", line⟩]
  | _ + 1, [], line => [⟨.eof, "", line⟩]
  | fuel + 1, c :: cs, line =>
    if c = '\n' then scanLoop fuel cs (line + 1)
    else if c = ' ' || c = '\t' || c = '\r' then scanLoop fuel cs line
    else if c = '/' then
      match cs with
      | '/' :: cs2 => scanLoop fuel (dropComment cs2) line
      | _ => ⟨.slash, "/", line⟩ :: scanLoop fuel cs line
    else if c = '(' then ⟨.lparen, "(", line⟩ :: scanLoop fuel cs line
    else if c = ')' then ⟨.rparen, ")", line⟩ :: scanLoop fuel cs line
    else if c = '\x7b' then ⟨.lbrace, "\x7b", line⟩ :: scanLoop fuel cs line
    else if c = '\x7d' then ⟨.rbrace, "\x7d", line⟩ :: scanLoop fuel cs line
    else if c = ',' then ⟨.comma, ",", line⟩ :: scanLoop fuel cs line
    else if c = '.' then ⟨.dot, ".", line⟩ :: scanLoop fuel cs line
    else if c = ';' then ⟨.semicolon, ";", line⟩ :: scanLoop fuel cs line
    else if c = '+' then ⟨.plus, "+", line⟩ :: scanLoop fuel cs line
    else if c = '-' then ⟨.minus, "-", line⟩ :: scanLoop fuel cs line
    else if c = '*' then ⟨.star, "*", line⟩ :: scanLoop fuel cs line
    else if c = '!' then
      match cs with
      | '=' :: cs2 => ⟨.bangEq, "!=", line⟩ :: scanLoop fuel cs2 line
      | _ => ⟨.bang, "!", line⟩ :: scanLoop fuel cs line
    else if c = '=' then
      match cs with
      | '=' :: cs2 => ⟨.eqEq, "==", line⟩ :: scanLoop fuel cs2 line
      | _ => ⟨.eq, "=", line⟩ :: scanLoop fuel cs line
    else if c = '>' then
      match cs with
      | '=' :: cs2 => ⟨.ge, ">=", line⟩ :: scanLoop fuel cs2 line
      | _ => ⟨.gt, ">", line⟩ :: scanLoop fuel cs line
    else if c = '<' then
      match cs with
      | '=' :: cs2 => ⟨.le, "<=", line⟩ :: scanLoop fuel cs2 line
      | _ => ⟨.lt, "<", line⟩ :: scanLoop fuel cs line
    else if c = '"' then
      match takeStr cs with
      | (some body, rest, nl) =>
        ⟨.strLit, String.mk body, line⟩ :: scanLoop fuel rest (line + nl)
      | (none, rest, nl) => ⟨.errTok, "Unterminated string.", line + nl⟩ :: scanLoop fuel rest (line + nl)
    else if isDigitChar c then
      let (ds, rest) := takeDigits (c :: cs)
      match rest with
      | '.' :: d :: rest2 =>
        if isDigitChar d then
          let (fs, rest3) := takeDigits (d :: rest2)
          ⟨.numLit, String.mk (ds ++ '.' :: fs), line⟩ :: scanLoop fuel rest3 line
        else ⟨.numLit, String.mk ds, line⟩ :: scanLoop fuel rest line
      | _ => ⟨.numLit, String.mk ds, line⟩ :: scanLoop fuel rest line
    else if isAlphaChar c then
      let (xs, rest) := takeIdent (c :: cs)
      ⟨keywordKind (String.mk xs), String.mk xs, line⟩ :: scanLoop fuel rest line
    else ⟨.errTok, "Unexpected character.", line⟩ :: scanLoop fuel cs line

/-- Modelled from the spec: the on-demand tokenizer, run to completion.
The real scanner hands out tokens lazily; producing the whole list up
front is observationally identical for the single-pass parser. -/
def scanTokens (src : String) : List Token :=
  scanLoop (src.length + 1) src.data 1

/-! Abstract syntax.  Modelled from the spec: module `compile` is absent
from src/.  The single-pass compiler emits bytecode directly; the model
parses to a syntax tree and interprets it, which realizes the same
source-level semantics the spec prescribes (precedence, associativity,
scoping, closures, upvalue capture). -/

mutual
inductive Expr where
  | num (n : LoxNum)
  | str (s : String)
  | boolLit (b : Bool)
  | nilLit
  | var (name : String)
  | assign (name : String) (e : Expr)
  | unary (op : UnOp) (e : Expr)
  | binary (op : BinOp) (l r : Expr)
  | logical (isAnd : Bool) (l r : Expr)
  | call (callee : Expr) (args : List Expr)

inductive UnOp where
  | neg | lnot

inductive BinOp where
  | add | sub | mul | div | gt | ge | lt | le | eq | ne
end

mutual
inductive Stmt where
  | exprStmt (e : Expr)
  | printStmt (e : Expr)
  | varDecl (name : String) (init : Option Expr)
  | funDecl (name : String) (params : List String) (body : List Stmt)
  | block (stmts : List Stmt)
  | ifStmt (cond : Expr) (thenB : Stmt) (elseB : Option Stmt)
  | whileStmt (cond : Expr) (body : Stmt)
  | retStmt (e : Option Expr)
end

/-- Convert a number token's text back to its value. -/
def parseNumTok (s : String) : LoxNum :=
  let parts := s.data.splitOn '.'
  match parts with
  | [i] => .ofNat (digitsToNat i)
  | [i, f] => numOfDigits i f
  | _ => .ofNat 0

/-- Parser state: remaining tokens, accumulated error reports, and the
panic-mode flag that suppresses cascaded reports until synchronization. -/
structure PState where
  toks : List Token
  errs : List String
  panicMode : Bool

def PState.peek (st : PState) : Token :=
  st.toks.headD ⟨.eof, "", 0⟩

def PState.peek2 (st : PState) : Token :=
  (st.toks.drop 1).headD ⟨.eof, "", 0⟩

def PState.advance (st : PState) : PState :=
  { st with toks := st.toks.tail }

def PState.check (st : PState) (k : TokKind) : Bool :=
  st.peek.kind = k

/-- Record an error; in panic mode further reports are suppressed, as the
spec prescribes. -/
def PState.errorAt (st : PState) (msg : String) : PState :=
  if st.panicMode then st
  else { st with errs := st.errs ++ [msg], panicMode := true }

def PState.consume (st : PState) (k : TokKind) (msg : String) : PState :=
  if st.check k then st.advance else st.errorAt msg

/-- Synchronize after a parse error: skip to a statement boundary. -/
def synchronize : Nat → PState → PState
  | 0, st => st
  | fuel + 1, st =>
    let t := st.peek
    match t.kind with
    | .eof => { st with panicMode := false }
    | .semicolon => { (st.advance) with panicMode := false }
    | .kClass | .kFun | .kVar | .kFor | .kIf | .kWhile | .kPrint | .kReturn =>
      { st with panicMode := false }
    | _ => synchronize fuel st.advance

/-- Precedence levels: NONE < ASSIGNMENT < OR < AND < EQUALITY <
COMPARISON < TERM < FACTOR < UNARY < CALL < PRIMARY. -/
def precNone : Nat := 0
def precAssign : Nat := 1
def precOr : Nat := 2
def precAnd : Nat := 3
def precEquality : Nat := 4
def precComparison : Nat := 5
def precTerm : Nat := 6
def precFactor : Nat := 7
def precUnary : Nat := 8
def precCall : Nat := 9

/-- The infix entry of the parse table: the precedence a token binds at
when found in infix position (NONE when it has no infix rule). -/
def infixPrec (k : TokKind) : Nat :=
  match k with
  | .plus | .minus => precTerm
  | .star | .slash => precFactor
  | .bangEq | .eqEq => precEquality
  | .gt | .ge | .lt | .le => precComparison
  | .kAnd => precAnd
  | .kOr => precOr
  | .lparen => precCall
  | _ => precNone

def binOpOf (k : TokKind) : BinOp :=
  match k with
  | .plus => .add
  | .minus => .sub
  | .star => .mul
  | .slash => .div
  | .gt => .gt
  | .ge => .ge
  | .lt => .lt
  | .le => .le
  | .bangEq => .ne
  | _ => .eq

mutual
/-- Pratt expression parser at a minimum precedence.  The boolean passed to
the prefix rule for identifiers ("can assign") is derived from the current
precedence being at most ASSIGNMENT.  All parser functions consume fuel;
the fuel supplied by `parseProgram` is ample for any input (each token
costs a bounded number of recursion steps). -/
def parsePrec : Nat → Nat → PState → (Expr × PState)
  | 0, _, st => (.nilLit, st.errorAt "Expression too deeply nested.")
  | fuel + 1, minPrec, st =>
    let canAssign := minPrec ≤ precAssign
    let t := st.peek
    let (lhs, st) :=
      match t.kind with
      | .numLit => ((Expr.num (parseNumTok t.text)), st.advance)
      | .strLit => ((Expr.str t.text), st.advance)
      | .kTrue => ((Expr.boolLit true), st.advance)
      | .kFalse => ((Expr.boolLit false), st.advance)
      | .kNil => ((Expr.nilLit), st.advance)
      | .lparen =>
        let (e, st) := parsePrec fuel precAssign st.advance
        (e, st.consume .rparen "Expect ')' after expression.")
      | .minus =>
        let (e, st) := parsePrec fuel precUnary st.advance
        (Expr.unary .neg e, st)
      | .bang =>
        let (e, st) := parsePrec fuel precUnary st.advance
        (Expr.unary .lnot e, st)
      | .ident =>
        if canAssign && (st.advance).check .eq then
          let (e, st2) := parsePrec fuel precAssign (st.advance).advance
          (Expr.assign t.text e, st2)
        else (Expr.var t.text, st.advance)
      | _ => (.nilLit, st.errorAt "Expect expression.")
    parseInfixLoop fuel minPrec canAssign lhs st

/-- The infix loop of the Pratt parser: as long as the next token has an
infix rule binding at least as tightly as the minimum precedence, consume
it and parse its right operand.  Binary operators are left-associative
(right operand parsed one level tighter). -/
def parseInfixLoop : Nat → Nat → Bool → Expr → PState → (Expr × PState)
  | 0, _, _, lhs, st => (lhs, st.errorAt "Expression too deeply nested.")
  | fuel + 1, minPrec, canAssign, lhs, st =>
    let t := st.peek
    let p := infixPrec t.kind
    if p = precNone || p < minPrec then
      if canAssign && st.check .eq then
        (lhs, st.errorAt "Invalid assignment target.")
      else (lhs, st)
    else
      match t.kind with
      | .kAnd =>
        let (rhs, st) := parsePrec fuel (precAnd + 1) st.advance
        parseInfixLoop fuel minPrec canAssign (.logical true lhs rhs) st
      | .kOr =>
        let (rhs, st) := parsePrec fuel (precOr + 1) st.advance
        parseInfixLoop fuel minPrec canAssign (.logical false lhs rhs) st
      | .lparen =>
        let (args, st) := parseArgs fuel st.advance
        parseInfixLoop fuel minPrec canAssign (.call lhs args) st
      | _ =>
        let (rhs, st) := parsePrec fuel (p + 1) st.advance
        parseInfixLoop fuel minPrec canAssign (.binary (binOpOf t.kind) lhs rhs) st

/-- Parse a call's argument list (after the opening paren). -/
def parseArgs : Nat → PState → (List Expr × PState)
  | 0, st => ([], st.errorAt "Expression too deeply nested.")
  | fuel + 1, st =>
    if st.check .rparen then ([], st.advance)
    else
      let (a, st) := parsePrec fuel precAssign st
      parseArgsRest fuel [a] st

def parseArgsRest : Nat → List Expr → PState → (List Expr × PState)
  | 0, acc, st => (acc.reverse, st.errorAt "Expression too deeply nested.")
  | fuel + 1, acc, st =>
    if st.check .comma then
      let (a, st) := parsePrec fuel precAssign st.advance
      parseArgsRest fuel (a :: acc) st
    else (acc.reverse, st.consume .rparen "Expect ')' after arguments.")
end

def parseExpression (fuel : Nat) (st : PState) : (Expr × PState) :=
  parsePrec fuel precAssign st

mutual
/-- Declaration parser: `var`, `fun`, or statement; synchronizes after a
declaration that left the parser in panic mode. -/
def parseDecl : Nat → PState → (Option Stmt × PState)
  | 0, st => (none, st.errorAt "Program too deeply nested.")
  | fuel + 1, st =>
    let (s, st) :=
      match st.peek.kind with
      | .kVar =>
        let st := st.advance
        let nameTok := st.peek
        let st := st.consume .ident "Expect variable name."
        let (init, st) :=
          if st.check .eq then
            let (e, st) := parsePrec fuel precAssign st.advance
            (some e, st)
          else (none, st)
        let st := st.consume .semicolon "Expect ';' after variable declaration."
        (if nameTok.kind = TokKind.ident then some (Stmt.varDecl nameTok.text init) else none, st)
      | .kFun =>
        let st := st.advance
        let nameTok := st.peek
        let st := st.consume .ident "Expect function name."
        let (ps, body, st) := parseFunRest fuel st
        (if nameTok.kind = TokKind.ident then some (Stmt.funDecl nameTok.text ps body) else none, st)
      | _ =>
        let (s, st) := parseStmt fuel st
        (some s, st)
    if st.panicMode then (s, synchronize fuel st) else (s, st)

/-- Parameter list and body of a function declaration (after the name). -/
def parseFunRest : Nat → PState → (List String × List Stmt × PState)
  | 0, st => ([], [], st.errorAt "Program too deeply nested.")
  | fuel + 1, st =>
    let st := st.consume .lparen "Expect '(' after function name."
    let (ps, st) :=
      if st.check .rparen then ([], st.advance)
      else
        let p0 := st.peek
        let st := st.consume .ident "Expect parameter name."
        parseParamsRest fuel (if p0.kind = .ident then [p0.text] else []) st
    let st := st.consume .lbrace "Expect '\x7b' before function body."
    let (body, st) := parseBlock fuel [] st
    (ps, body, st)

def parseParamsRest : Nat → List String → PState → (List String × PState)
  | 0, acc, st => (acc.reverse, st.errorAt "Program too deeply nested.")
  | fuel + 1, acc, st =>
    if st.check .comma then
      let st := st.advance
      let p0 := st.peek
      let st := st.consume .ident "Expect parameter name."
      parseParamsRest fuel (if p0.kind = .ident then p0.text :: acc else acc) st
    else (acc.reverse, st.consume .rparen "Expect ')' after parameters.")

/-- Parse declarations until the closing brace of a block. -/
def parseBlock : Nat → List Stmt → PState → (List Stmt × PState)
  | 0, acc, st => (acc.reverse, st.errorAt "Program too deeply nested.")
  | fuel + 1, acc, st =>
    if st.check .rbrace then (acc.reverse, st.advance)
    else if st.check .eof then (acc.reverse, st.errorAt "Expect '\x7d' after block.")
    else
      let (s, st) := parseDecl fuel st
      parseBlock fuel (match s with | some s => s :: acc | none => acc) st

/-- Statement parser: print, block, if, while, for (desugared to a while
inside a block, per the spec), return, or expression statement. -/
def parseStmt : Nat → PState → (Stmt × PState)
  | 0, st => (.block [], st.errorAt "Program too deeply nested.")
  | fuel + 1, st =>
    match st.peek.kind with
    | .kPrint =>
      let (e, st) := parsePrec fuel precAssign st.advance
      (.printStmt e, st.consume .semicolon "Expect ';' after value.")
    | .lbrace =>
      let (ss, st) := parseBlock fuel [] st.advance
      (.block ss, st)
    | .kIf =>
      let st := (st.advance).consume .lparen "Expect '(' after 'if'."
      let (c, st) := parsePrec fuel precAssign st
      let st := st.consume .rparen "Expect ')' after condition."
      let (t, st) := parseStmt fuel st
      if st.check .kElse then
        let (e, st) := parseStmt fuel st.advance
        (.ifStmt c t (some e), st)
      else (.ifStmt c t none, st)
    | .kWhile =>
      let st := (st.advance).consume .lparen "Expect '(' after 'while'."
      let (c, st) := parsePrec fuel precAssign st
      let st := st.consume .rparen "Expect ')' after condition."
      let (b, st) := parseStmt fuel st
      (.whileStmt c b, st)
    | .kFor =>
      let st := (st.advance).consume .lparen "Expect '(' after 'for'."
      let (initS, st) :=
        match st.peek.kind with
        | .semicolon => (none, st.advance)
        | .kVar =>
          let (d, st) := parseDecl fuel st
          (d, st)
        | _ =>
          let (e, st) := parsePrec fuel precAssign st
          (some (Stmt.exprStmt e), st.consume .semicolon "Expect ';' after loop initializer.")
      let (cond, st) :=
        if st.check .semicolon then (Expr.boolLit true, st.advance)
        else
          let (c, st) := parsePrec fuel precAssign st
          (c, st.consume .semicolon "Expect ';' after loop condition.")
      let (incr, st) :=
        if st.check .rparen then (none, st.advance)
        else
          let (e, st) := parsePrec fuel precAssign st
          (some e, st.consume .rparen "Expect ')' after for clauses.")
      let (body, st) := parseStmt fuel st
      let loopBody := match incr with
        | some e => Stmt.block [body, .exprStmt e]
        | none => body
      let loop := Stmt.whileStmt cond loopBody
      (match initS with
        | some i => Stmt.block [i, loop]
        | none => Stmt.block [loop], st)
    | .kReturn =>
      let st := st.advance
      if st.check .semicolon then (.retStmt none, st.advance)
      else
        let (e, st) := parsePrec fuel precAssign st
        (.retStmt (some e), st.consume .semicolon "Expect ';' after return value.")
    | _ =>
      let (e, st) := parsePrec fuel precAssign st
      (.exprStmt e, st.consume .semicolon "Expect ';' after expression.")
end

/-- The top-level declaration loop. -/
def parseProgramLoop : Nat → List Stmt → PState → (List Stmt × PState)
  | 0, acc, st => (acc.reverse, st.errorAt "Program too deeply nested.")
  | fuel + 1, acc, st =>
    if st.check .eof then (acc.reverse, st)
    else
      let (s, st) := parseDecl fuel st
      parseProgramLoop fuel (match s with | some s => s :: acc | none => acc) st

/-- Modelled from the spec: `Parser::compile` from the absent module
`compile`.  Scans and parses the whole source; returns the program and the
recorded error reports.  Compilation succeeds iff no error was recorded. -/
def parseProgram (src : String) : List Stmt × List String :=
  let toks := scanTokens src
  let fuel := 10 * toks.length + 10
  let (ss, st) := parseProgramLoop fuel [] ⟨toks, [], false⟩
  (ss, st.errs)

/-! Runtime.  Modelled from the spec: modules `vm` and `obj` are absent
from src/.  The spec's closure/upvalue machinery (open upvalues into stack
slots, closed upvalues owning their value, `CLOSE_UPVALUE` on scope exit)
implements capture-by-reference of variables; the model realizes the same
semantics directly with a store of heap cells: every local lives in a
fresh cell, a closure captures the cell environment of its definition
point, and reads/writes through a capture go to the shared cell — which is
exactly the open/closed upvalue observable behavior the spec specifies. -/

/-- A variable environment: name to cell index, innermost first. -/
abbrev Env := List (String × Nat)

/-- A closure object: function name, parameters, body, and the captured
environment of its definition point. -/
structure ClosObj where
  name : String
  params : List String
  body : List Stmt
  env : Env

/-- The interpreter session state: the cell store, the closure heap, the
globals table, the string interner, and the accumulated standard output.
The spec's globals table and interner are open hash tables; they are
modelled here by the association map the table refines (see the `Table`
development below). -/
structure Interp where
  cells : List Value
  closures : List ClosObj
  globals : List (String × Value)
  interned : List String
  output : List String

def getCell (st : Interp) (i : Nat) : Value :=
  (st.cells.get? i).getD .nil

def setCellAt (st : Interp) (i : Nat) (v : Value) : Interp :=
  { st with cells := st.cells.set i v }

def addCell (st : Interp) (v : Value) : Interp × Nat :=
  ({ st with cells := st.cells ++ [v] }, st.cells.length)

/-- Intern a string: if the byte sequence already exists the canonical
object is reused, otherwise it is added. -/
def internStr (st : Interp) (s : String) : Interp :=
  if st.interned.contains s then st else { st with interned := st.interned ++ [s] }

def addClos (st : Interp) (c : ClosObj) : Interp × Nat :=
  ({ st with closures := st.closures ++ [c] }, st.closures.length)

def getClos (st : Interp) (cid : Nat) : ClosObj :=
  (st.closures.get? cid).getD ⟨"", [], [], []⟩

/-- Update an association list in place (used for the globals table:
`DEFINE_GLOBAL` overwrites, `SET_GLOBAL` only hits existing keys). -/
def setAssoc : List (String × Value) → String → Value → List (String × Value)
  | [], x, v => [(x, v)]
  | (y, w) :: rest, x, v =>
    if y = x then (y, v) :: rest else (y, w) :: setAssoc rest x v

/-- Human-readable form for `PRINT`. -/
def renderIn (st : Interp) : Value → String
  | .number n => if n.den = 1 then toString n.num else toString n.num ++ "/" ++ toString n.den
  | .bool true => "true"
  | .bool false => "false"
  | .nil => "nil"
  | .str s => s
  | .closure cid => "<fn " ++ (getClos st cid).name ++ ">"
  | .native _ => "<native fn>"

/-- Arithmetic and comparison on two numbers. -/
def numBin (op : BinOp) (a b : LoxNum) : Value :=
  match op with
  | .add => .number (a.add b)
  | .sub => .number (a.sub b)
  | .mul => .number (a.mul b)
  | .div => .number (a.div b)
  | .gt => .bool (b.numLt a)
  | .ge => .bool (b.numLe a)
  | .lt => .bool (a.numLt b)
  | .le => .bool (a.numLe b)
  | .eq => .bool (a.numEq b)
  | .ne => .bool (!a.numEq b)

/-- The universal `EQUAL` operator: numbers by numeric equality, all other
values structurally (interned strings by contents, heap objects by
identity). -/
def valueEq (a b : Value) : Bool :=
  match a, b with
  | .number x, .number y => x.numEq y
  | a, b => decide (a = b)

/-- Result of running the VM to completion: normal termination, a runtime
error, or fuel exhaustion (the model's stand-in for still-running). -/
inductive RunRes where
  | normal
  | err (m : String)
  | noFuel
deriving DecidableEq, Repr

/-- Bind parameters to argument values in fresh cells (the callee frame's
local slots). -/
def bindParams : Interp -> List String -> List Value -> Interp × Env
  | st, [], _ => (st, [])
  | st, p :: ps, [] =>
    let (st, i) := addCell st .nil
    let (st, env) := bindParams st ps []
    (st, (p, i) :: env)
  | st, p :: ps, v :: vs =>
    let (st, i) := addCell st v
    let (st, env) := bindParams st ps vs
    (st, (p, i) :: env)

/-! The execution engine.  The spec's VM is a stack machine: a value
stack, a stack of call frames, and a dispatch loop.  The model mirrors
that shape directly: a work stack of control items (the compiled-away
instruction stream), a value stack, and the session state, stepped by a
tail-recursive loop.  A call pushes a frame marker onto the work stack;
`return` unwinds to the nearest marker; a body that falls off its end
yields the implicit `nil`. -/

mutual
/-- A pending consumer of the value on top of the value stack. -/
inductive Frame where
  | fAssign (x : String) (env : Env)
  | fUnary (op : UnOp)
  | fBinL (op : BinOp) (env : Env) (r : Expr)
  | fBinR (op : BinOp) (lv : Value)
  | fLogic (isAnd : Bool) (env : Env) (r : Expr)
  | fCallee (env : Env) (args : List Expr)
  | fArg (env : Env) (pend : List Expr) (cv : Value) (acc : List Value)
  | fVarSeq (x : String) (env : Env) (isGlobal : Bool) (rest : List Stmt)
  | fDiscardSeq (env : Env) (isGlobal : Bool) (rest : List Stmt)
  | fPrintSeq (env : Env) (isGlobal : Bool) (rest : List Stmt)
  | fIf (env : Env) (isGlobal : Bool) (thenB : Stmt) (elseB : Option Stmt) (rest : List Stmt)
  | fWhile (env : Env) (isGlobal : Bool) (cond : Expr) (body : Stmt) (rest : List Stmt)
  | fRet

/-- One control item: evaluate an expression, consume a value, execute a
statement sequence, or the frame marker a finished function body reaches
(yielding the implicit nil). -/
inductive Work where
  | wExpr (env : Env) (e : Expr)
  | wApply (f : Frame)
  | wSeq (env : Env) (isGlobal : Bool) (ss : List Stmt)
  | wCallEnd
end

/-- One machine step either continues with a new configuration or aborts
with a runtime error. -/
inductive StepRes where
  | cont (ctl : List Work) (vs : List Value) (st : Interp)
  | fail (m : String) (st : Interp)

/-- Unwind the work stack to the nearest enclosing call marker (for
`return`).  Returns `none` when there is no enclosing call. -/
def unwindRet : List Work -> Option (List Work)
  | [] => none
  | .wCallEnd :: ws => some ws
  | _ :: ws => unwindRet ws

/-- The call protocol: a Closure checks its arity and runs its body in
fresh parameter cells on top of its captured environment, behind a frame
marker; a Native is invoked directly (the registered `__dummy` native
returns 420); anything else is a runtime error. -/
def invoke (st : Interp) (cv : Value) (argv : List Value)
    (ws : List Work) (vs : List Value) : StepRes :=
  match cv with
  | .closure cid =>
    let clos := getClos st cid
    if argv.length = clos.params.length then
      let (st, binds) := bindParams st clos.params argv
      .cont (.wSeq (binds ++ clos.env) false clos.body :: .wCallEnd :: ws) vs st
    else
      .fail ("Expected " ++ toString clos.params.length ++
        " arguments but got " ++ toString argv.length ++ ".") st
  | .native _ => .cont ws (.number (.ofNat 420) :: vs) st
  | _ => .fail "Can only call functions and classes." st

/-- Dispatch one expression control item. -/
def stepExpr (env : Env) (e : Expr) (ws : List Work) (vs : List Value)
    (st : Interp) : StepRes :=
  match e with
  | .num n => .cont ws (.number n :: vs) st
  | .str s => .cont ws (.str s :: vs) (internStr st s)
  | .boolLit b => .cont ws (.bool b :: vs) st
  | .nilLit => .cont ws (.nil :: vs) st
  | .var x =>
    match List.lookup x env with
    | some i => .cont ws (getCell st i :: vs) st
    | none =>
      match List.lookup x st.globals with
      | some v => .cont ws (v :: vs) st
      | none => .fail ("Undefined variable '" ++ x ++ "'.") st
  | .assign x e1 => .cont (.wExpr env e1 :: .wApply (.fAssign x env) :: ws) vs st
  | .unary op e1 => .cont (.wExpr env e1 :: .wApply (.fUnary op) :: ws) vs st
  | .binary op l r => .cont (.wExpr env l :: .wApply (.fBinL op env r) :: ws) vs st
  | .logical isAnd l r => .cont (.wExpr env l :: .wApply (.fLogic isAnd env r) :: ws) vs st
  | .call callee args => .cont (.wExpr env callee :: .wApply (.fCallee env args) :: ws) vs st

/-- Dispatch one value-consuming control item. -/
def stepApply (f : Frame) (v : Value) (ws : List Work) (vs : List Value)
    (st : Interp) : StepRes :=
  match f with
  | .fAssign x env =>
    match List.lookup x env with
    | some i => .cont ws (v :: vs) (setCellAt st i v)
    | none =>
      if (List.lookup x st.globals).isSome then
        .cont ws (v :: vs) { st with globals := setAssoc st.globals x v }
      else .fail ("Undefined variable '" ++ x ++ "'.") st
  | .fUnary op =>
    match op with
    | .lnot => .cont ws (.bool (!truthy v) :: vs) st
    | .neg =>
      match v with
      | .number n => .cont ws (.number n.neg :: vs) st
      | _ => .fail "Operand must be a number." st
  | .fBinL op env r => .cont (.wExpr env r :: .wApply (.fBinR op v) :: ws) vs st
  | .fBinR op lv =>
    match op with
    | .eq => .cont ws (.bool (valueEq lv v) :: vs) st
    | .ne => .cont ws (.bool (!valueEq lv v) :: vs) st
    | .add =>
      match lv, v with
      | .number a, .number b => .cont ws (.number (a.add b) :: vs) st
      | .str a, .str b => .cont ws (.str (a ++ b) :: vs) (internStr st (a ++ b))
      | _, _ => .fail "Operands must be two numbers or two strings." st
    | op =>
      match lv, v with
      | .number a, .number b => .cont ws (numBin op a b :: vs) st
      | _, _ => .fail "Operands must be numbers." st
  | .fLogic isAnd env r =>
    if isAnd then
      if truthy v then .cont (.wExpr env r :: ws) vs st else .cont ws (v :: vs) st
    else
      if truthy v then .cont ws (v :: vs) st else .cont (.wExpr env r :: ws) vs st
  | .fCallee env args =>
    match args with
    | [] => invoke st v [] ws vs
    | a :: rest => .cont (.wExpr env a :: .wApply (.fArg env rest v []) :: ws) vs st
  | .fArg env pend cv acc =>
    match pend with
    | [] => invoke st cv (v :: acc).reverse ws vs
    | a :: rest => .cont (.wExpr env a :: .wApply (.fArg env rest cv (v :: acc)) :: ws) vs st
  | .fVarSeq x env isGlobal rest =>
    if isGlobal then
      .cont (.wSeq env isGlobal rest :: ws) vs { st with globals := setAssoc st.globals x v }
    else
      let (st, i) := addCell st v
      .cont (.wSeq ((x, i) :: env) isGlobal rest :: ws) vs st
  | .fDiscardSeq env isGlobal rest => .cont (.wSeq env isGlobal rest :: ws) vs st
  | .fPrintSeq env isGlobal rest =>
    .cont (.wSeq env isGlobal rest :: ws) vs { st with output := st.output ++ [renderIn st v] }
  | .fIf env isGlobal thenB elseB rest =>
    if truthy v then .cont (.wSeq env isGlobal (thenB :: rest) :: ws) vs st
    else
      match elseB with
      | some e => .cont (.wSeq env isGlobal (e :: rest) :: ws) vs st
      | none => .cont (.wSeq env isGlobal rest :: ws) vs st
  | .fWhile env isGlobal cond body rest =>
    if truthy v then
      .cont (.wSeq env isGlobal [body] :: .wExpr env cond ::
        .wApply (.fWhile env isGlobal cond body rest) :: ws) vs st
    else .cont (.wSeq env isGlobal rest :: ws) vs st
  | .fRet =>
    match unwindRet ws with
    | some ws2 => .cont ws2 (v :: vs) st
    | none => .cont [] (v :: vs) st

/-- Dispatch the first statement of a sequence.  `isGlobal` is true exactly
at scope depth 0, where `var` and `fun` declarations define globals; inside
any block or function body they create locals (fresh cells).  Declarations
extend the environment carried for the rest of the sequence. -/
def stepSeq (env : Env) (isGlobal : Bool) (ss : List Stmt) (ws : List Work)
    (vs : List Value) (st : Interp) : StepRes :=
  match ss with
  | [] => .cont ws vs st
  | s :: rest =>
    match s with
    | .exprStmt e =>
      .cont (.wExpr env e :: .wApply (.fDiscardSeq env isGlobal rest) :: ws) vs st
    | .printStmt e =>
      .cont (.wExpr env e :: .wApply (.fPrintSeq env isGlobal rest) :: ws) vs st
    | .varDecl x init =>
      match init with
      | some e => .cont (.wExpr env e :: .wApply (.fVarSeq x env isGlobal rest) :: ws) vs st
      | none => stepApply (.fVarSeq x env isGlobal rest) .nil ws vs st
    | .funDecl f ps body =>
      if isGlobal then
        let (st, cid) := addClos st ⟨f, ps, body, env⟩
        .cont (.wSeq env isGlobal rest :: ws) vs
          { st with globals := setAssoc st.globals f (.closure cid) }
      else
        let (st, i) := addCell st .nil
        let env2 := (f, i) :: env
        let (st, cid) := addClos st ⟨f, ps, body, env2⟩
        .cont (.wSeq env2 isGlobal rest :: ws) vs (setCellAt st i (.closure cid))
    | .block bs =>
      .cont (.wSeq env false bs :: .wSeq env isGlobal rest :: ws) vs st
    | .ifStmt c t e =>
      .cont (.wExpr env c :: .wApply (.fIf env isGlobal t e rest) :: ws) vs st
    | .whileStmt c b =>
      .cont (.wExpr env c :: .wApply (.fWhile env isGlobal c b rest) :: ws) vs st
    | .retStmt e =>
      match e with
      | some e1 => .cont (.wExpr env e1 :: .wApply .fRet :: ws) vs st
      | none => stepApply .fRet .nil ws vs st

/-- One machine step. -/
def step (w : Work) (ws : List Work) (vs : List Value) (st : Interp) : StepRes :=
  match w with
  | .wExpr env e => stepExpr env e ws vs st
  | .wApply f =>
    match vs with
    | v :: vrest => stepApply f v ws vrest st
    | [] => .fail "Value stack underflow." st
  | .wSeq env isGlobal ss => stepSeq env isGlobal ss ws vs st
  | .wCallEnd => .cont ws (.nil :: vs) st

/-- The dispatch loop, driven by fuel.  Any fuel bound above the actual
number of machine steps yields the real result. -/
def runMachine : Nat -> List Work -> List Value -> Interp -> Interp × RunRes
  | 0, _, _, st => (st, .noFuel)
  | fuel + 1, ctl, vs, st =>
    match ctl with
    | [] => (st, .normal)
    | w :: ws =>
      match step w ws vs st with
      | .cont ctl2 vs2 st2 => runMachine fuel ctl2 vs2 st2
      | .fail m st2 => (st2, .err m)

/-- The fresh session state: empty heap and interner; the host has
registered the `__dummy` native as a global (the spec's host surface). -/
def initInterp : Interp :=
  { cells := [], closures := [], globals := [("__dummy", .native 0)],
    interned := [], output := [] }

/-- Run a compiled top-level script in a fresh VM. -/
def runScript (prog : List Stmt) (fuel : Nat) : Interp × RunRes :=
  runMachine fuel [.wSeq [] true prog] [] initInterp

/-- The host-visible error kind, from `vm::InterpretError`. -/
inductive InterpretError where
  | CompileError
  | RuntimeError (msg : String)
deriving DecidableEq, Repr

/-- The host-visible outcome of `interpret`: the final VM on success, an
error otherwise.  `noFuel` is the model's stand-in for a run longer than
the supplied fuel. -/
inductive InterpretOutcome where
  | ok (vm : Interp)
  | err (e : InterpretError)
  | noFuel

/-- `interpret` from src/main.rs lines 52-67: create a fresh heap list and
interner, compile, return `CompileError` if compilation reported failure,
otherwise construct a VM and run, returning the VM on success. -/
def liftRunOutcome : Interp × RunRes → InterpretOutcome
  | (st, .normal) => .ok st
  | (_, .err m) => .err (.RuntimeError m)
  | (_, .noFuel) => .noFuel

def interpret (src : String) (fuel : Nat) : InterpretOutcome :=
  if (parseProgram src).2.isEmpty then
    liftRunOutcome (runScript (parseProgram src).1 fuel)
  else .err .CompileError

/-- The standard output produced by a session of `interpret`: when
compilation fails, `interpret` returns before any VM is constructed, so
the session produces no runtime output. -/
def interpretStdout (src : String) (fuel : Nat) : List String :=
  if (parseProgram src).2.isEmpty then
    (runScript (parseProgram src).1 fuel).1.output
  else []

/-- The compile-time error reports of a session (written to stderr). -/
def interpretReports (src : String) : List String :=
  (parseProgram src).2

def isOk : InterpretOutcome → Bool
  | .ok _ => true
  | _ => false

/-- The host inspection API (`vm.get_string` + `vm.globals.get` in the
tests): read a global of the finished VM by name. -/
def resultGlobal (o : InterpretOutcome) (k : String) : Option Value :=
  match o with
  | .ok st => List.lookup k st.globals
  | _ => none

/-- Whether a byte sequence is present in the finished VM's interner. -/
def resultInterned (o : InterpretOutcome) (s : String) : Bool :=
  match o with
  | .ok st => st.interned.contains s
  | _ => false

/-- How a process run ends: normally, or aborted by a panic. -/
inductive ReplEnd where
  | finished
  | panicked
deriving DecidableEq, Repr

/-- `repl` from src/main.rs lines 37-45: read lines one at a time and call
`interpret(&line).unwrap()` on each.  `.unwrap()` panics when `interpret`
returns an error, which aborts the whole process: the remaining lines are
never read.  The model returns the outcomes of the lines that were
interpreted and how the loop ended. -/
def repl (fuel : Nat) : List String → List InterpretOutcome × ReplEnd
  | [] => ([], .finished)
  | l :: rest =>
    match interpret l fuel with
    | .ok st => (.ok st :: (repl fuel rest).1, (repl fuel rest).2)
    | r => ([r], .panicked)

/-- `run_file` from src/main.rs lines 47-50: `read_to_string(path).unwrap()`
panics when the file cannot be read, and `interpret(&string).unwrap()`
panics when interpretation fails.  The file system is modelled as a partial
map from paths to contents. -/
def run_file (fs : String → Option String) (path : String) (fuel : Nat) : ReplEnd :=
  match fs path with
  | none => .panicked
  | some src =>
    match interpret src fuel with
    | .ok _ => .finished
    | _ => .panicked

/-- The observable behavior of one `main` invocation. -/
inductive MainOutcome where
  | ranRepl (results : List InterpretOutcome) (e : ReplEnd)
  | ranFile (e : ReplEnd)
  | usageAbort

/-- `main` from src/main.rs lines 20-35: dispatch on the number of
command-line arguments after the program name — zero enters the REPL, one
runs the named file, anything else hits `panic!()`. -/
def mainRun (fs : String → Option String) (stdinLines : List String)
    (fuel : Nat) (args : List String) : MainOutcome :=
  match args with
  | [] => .ranRepl (repl fuel stdinLines).1 (repl fuel stdinLines).2
  | [p] => .ranFile (run_file fs p fuel)
  | _ => .usageAbort

/-! Hash table.  Modelled from the spec: module `table` is absent from
src/.  Open addressing with linear probing over a bucket array whose
capacity is a power of two (at least 8); entries are EMPTY, TOMBSTONE
(`key = none, value = true`) or LIVE; `count` counts live entries plus
tombstones (an insertion into a truly empty slot increments it, a delete
leaves it); the table grows at load factor 0.75 and rehashing drops the
tombstones.  Keys are interned strings, modelled by their contents (the
interner makes pointer equality coincide with byte equality). -/

def FNV_OFFSET : Nat := 2166136261

def FNV_PRIME : Nat := 16777619

/-- The 32-bit FNV-1a hash of a string's bytes (code points, which agree
with bytes on the ASCII sources at issue). -/
def fnv1a (s : String) : Nat :=
  s.data.foldl (fun a c => ((a ^^^ c.toNat) * FNV_PRIME) % 4294967296) FNV_OFFSET

/-- One bucket of the table. -/
inductive Entry where
  | empty
  | tombstone
  | live (key : String) (value : Value)
deriving DecidableEq, Repr

structure Table where
  entries : List Entry
  count : Nat
deriving DecidableEq, Repr

def Table.new : Table := ⟨[], 0⟩

/-- The probe loop of `find_entry`, starting `q` slots past the key's home
slot, remembering the first tombstone seen.  It stops at the key's live
entry (found) or at the first empty slot, preferring the recorded
tombstone as insertion point.  The fuel is the capacity: the real loop
relies on the load-factor invariant to guarantee an empty slot and spins
forever otherwise; under that invariant the fuel never runs out, and the
model returns `none` in the unreachable case. -/
def findFrom (es : List Entry) (k : String) (hk : Nat) :
    Nat → Nat → Option Nat → Option (Nat × Bool)
  | 0, _, _ => none
  | n + 1, q, tomb =>
    match es[(hk + q) % es.length]? with
    | some Entry.empty => some (tomb.getD ((hk + q) % es.length), false)
    | some Entry.tombstone =>
      findFrom es k hk n (q + 1) (some (tomb.getD ((hk + q) % es.length)))
    | some (Entry.live k2 _) =>
      if k2 = k then some ((hk + q) % es.length, true)
      else findFrom es k hk n (q + 1) tomb
    | none => none

def findEntry (es : List Entry) (k : String) : Option (Nat × Bool) :=
  findFrom es k (fnv1a k) es.length 0 none

/-- `GROW_CAPACITY`: double, with a floor of 8. -/
def growCapacity (c : Nat) : Nat := if c < 8 then 8 else 2 * c

/-- Re-insert one live entry into the fresh bucket array during capacity
adjustment. -/
def reinsert (es : List Entry) (k : String) (v : Value) : List Entry :=
  match findEntry es k with
  | some (i, _) => es.set i (.live k v)
  | none => es

/-- One step of rehashing: live entries are re-inserted and counted,
empty buckets and tombstones are dropped. -/
def rehashStep (acc : List Entry × Nat) (e : Entry) : List Entry × Nat :=
  match e with
  | .live k v => (reinsert acc.1 k v, acc.2 + 1)
  | _ => acc

/-- `adjust_capacity`: allocate a fresh bucket array of the grown size,
re-insert every live entry (tombstones vanish), recount. -/
def Table.adjustCapacity (t : Table) : Table :=
  let r := t.entries.foldl rehashStep
    (List.replicate (growCapacity t.entries.length) Entry.empty, 0)
  ⟨r.1, r.2⟩

/-- The probe-and-write phase of `set`, after any growth.  A hit
overwrites in place and returns false; a miss inserts at the probe's
insertion point and returns true, incrementing `count` only when that
slot was truly empty. -/
def Table.setIn (t1 : Table) (k : String) (v : Value) : Table × Bool :=
  match findEntry t1.entries k with
  | some (i, true) => (⟨t1.entries.set i (.live k v), t1.count⟩, false)
  | some (i, false) =>
    (⟨t1.entries.set i (.live k v),
      match t1.entries[i]? with
      | some Entry.empty => t1.count + 1
      | _ => t1.count⟩, true)
  | none => (t1, false)

/-- `set`: grow when `count + 1` would exceed `capacity * 0.75` (the
capacity is a multiple of four, so the comparison is the exact
cross-multiplied one), then probe and write. -/
def Table.set (t : Table) (k : String) (v : Value) : Table × Bool :=
  Table.setIn
    (if 3 * t.entries.length < 4 * (t.count + 1) then t.adjustCapacity else t) k v

/-- `get`: probe for the key's live entry. -/
def Table.get (t : Table) (k : String) : Option Value :=
  if t.count = 0 then none
  else
    match findEntry t.entries k with
    | some (i, true) =>
      match t.entries[i]? with
      | some (Entry.live _ v) => some v
      | _ => none
    | _ => none

/-- `delete`: replace the key's live entry with a tombstone (count is
unchanged) and report whether the key was present. -/
def Table.delete (t : Table) (k : String) : Table × Bool :=
  if t.count = 0 then (t, false)
  else
    match findEntry t.entries k with
    | some (i, true) => (⟨t.entries.set i .tombstone, t.count⟩, true)
    | _ => (t, false)

/-! Specification-side view of the table, used to state its invariant. -/

/-- Weighted count of buckets. -/
def countW (f : Entry → Nat) : List Entry → Nat
  | [] => 0
  | e :: es => f e + countW f es

def liveW : Entry → Nat
  | .live _ _ => 1
  | _ => 0

def tombW : Entry → Nat
  | .tombstone => 1
  | _ => 0

def numLive (es : List Entry) : Nat := countW liveW es

def numTomb (es : List Entry) : Nat := countW tombW es

/-- The key is live nowhere in the bucket array. -/
abbrev KeyAbsent (es : List Entry) (k : String) : Prop :=
  ∀ (i : Nat) (v : Value), es[i]? ≠ some (Entry.live k v)

/-- Probe-chain integrity: a live entry sits somewhere on its key's probe
sequence with no empty bucket strictly before it, so probing finds it. -/
abbrev ChainOK (es : List Entry) (k : String) (i : Nat) : Prop :=
  ∃ p, p < es.length ∧ i = (fnv1a k + p) % es.length ∧
    ∀ q, q < p → es[(fnv1a k + q) % es.length]? ≠ some Entry.empty

/-- Each key occupies at most one live bucket. -/
abbrev UniqKeys (es : List Entry) : Prop :=
  ∀ (i j : Nat) (k : String) (v w : Value),
    es[i]? = some (Entry.live k v) → es[j]? = some (Entry.live k w) →
    i = j ∧ v = w

/-- Every live bucket's probe chain is intact. -/
abbrev ChainsOK (es : List Entry) : Prop :=
  ∀ (i : Nat) (k : String) (v : Value),
    es[i]? = some (Entry.live k v) → ChainOK es k i

/-- The key is live somewhere with the given value. -/
abbrev Present (es : List Entry) (k : String) (w : Value) : Prop :=
  ∃ i : Nat, es[i]? = some (Entry.live k w)

/-- The hash table's invariant: the count is live-plus-tombstones, the
load factor is at most 0.75, the capacity is zero or at least 8, keys are
unique, and every live entry's probe chain is intact. -/
structure TableInv (t : Table) : Prop where
  count_eq : t.count = numLive t.entries + numTomb t.entries
  load : 4 * t.count ≤ 3 * t.entries.length
  cap8 : t.entries.length = 0 ∨ 8 ≤ t.entries.length
  uniq : UniqKeys t.entries
  chains : ChainsOK t.entries

/-! Concrete claim programs (from the spec's end-to-end scenarios and the
repository's test suite). -/

/-- The closure-independence program of `test::upvalue_closed`. -/
def srcUpvalueClosed : String :=
  "fun makeClosure() \x7b var a = 1; fun f() \x7b a = a + 1; return a; \x7d return f; \x7d " ++
  "var closure = makeClosure(); var first = closure(); " ++
  "var anotherClosure = makeClosure(); var second = anotherClosure(); var third = closure();"

/-- The immediate-upvalue-write program of `test::set_immediate_upvalue`. -/
def srcSetImmediateUpvalue : String :=
  "fun outer() \x7b var x = 420; fun inner() \x7b x = x + 1; return x; \x7d return inner(); \x7d " ++
  "var value = outer();"

/-- The string-concatenation program of `test::string`. -/
def srcStringConcat : String := "var noob = \"hello\" + \" sir\" + \" sir\";"

/-- A line whose compilation fails (`var` without a name). -/
def srcBadLine : String := "var;"

end Loxide

namespace Loxide

/-! Theorems. -/

/-- Helper: running the VM never produces a compile error. -/
theorem liftRunOutcome_ne_compile (p : Interp × RunRes) :
    liftRunOutcome p ≠ .err .CompileError := by
  obtain ⟨st, r⟩ := p
  cases r <;> simp [liftRunOutcome]

set_option maxRecDepth 1000000 in
set_option maxHeartbeats 16000000 in
/-- C1: for the `makeClosure` program, a successful run leaves
`first = 2`, `second = 2`, `third = 3`: the two closures returned by the
two calls to `makeClosure` capture independent copies of `a` (they are
distinct heap objects), and the second call of the first closure
increments its own captured `a` again. -/
theorem upvalue_closed_independent :
    isOk (interpret srcUpvalueClosed 300) = true ∧
    resultGlobal (interpret srcUpvalueClosed 300) "first" = some (.number ⟨2, 1⟩) ∧
    resultGlobal (interpret srcUpvalueClosed 300) "second" = some (.number ⟨2, 1⟩) ∧
    resultGlobal (interpret srcUpvalueClosed 300) "third" = some (.number ⟨3, 1⟩) ∧
    resultGlobal (interpret srcUpvalueClosed 300) "closure" ≠
      resultGlobal (interpret srcUpvalueClosed 300) "anotherClosure" := by
  decide

set_option maxRecDepth 1000000 in
set_option maxHeartbeats 16000000 in
/-- C2: for the `outer`/`inner` program, a successful run leaves
`value = 421`: while the captured local `x` is still on the stack, the
write through its upvalue is observed by the subsequent read, so the inner
call returns the incremented value. -/
theorem set_immediate_upvalue_observed :
    isOk (interpret srcSetImmediateUpvalue 200) = true ∧
    resultGlobal (interpret srcSetImmediateUpvalue 200) "value" =
      some (.number ⟨421, 1⟩) := by
  decide

set_option maxRecDepth 1000000 in
set_option maxHeartbeats 16000000 in
/-- C4: `var noob = "hello" + " sir" + " sir";` parses as a left-associated
pair of ADD operations and a successful run leaves the global `noob` bound
to the string "hello sir sir", which has been interned. -/
theorem string_concat_left_assoc :
    (parseProgram srcStringConcat).1 =
      [.varDecl "noob" (some (.binary .add
        (.binary .add (.str "hello") (.str " sir")) (.str " sir")))] ∧
    (parseProgram srcStringConcat).2 = [] ∧
    resultGlobal (interpret srcStringConcat 100) "noob" = some (.str "hello sir sir") ∧
    resultInterned (interpret srcStringConcat 100) "hello sir sir" = true := by
  refine ⟨rfl, by decide, by decide, by decide⟩

/-- C5 counterexample: a REPL session whose first line fails to compile
interprets only that line — the `unwrap` panics, the loop ends, and the
second line is never read or interpreted, contradicting the claim that the
loop continues past an erroring line. -/
theorem repl_stops_after_error_counterexample :
    repl 50 [srcBadLine, "var x = 1;"] = ([.err .CompileError], .panicked) := by
  have h : interpret srcBadLine 50 = .err .CompileError := rfl
  simp [repl, h]

/-- C5 (amended): in the REPL, a line whose interpretation fails with a
compile or runtime error terminates the whole loop via the panic in
`interpret(&line).unwrap()`: the lines before the first erroring line are
each interpreted, the erroring line's outcome is the last one produced,
and the remaining lines are never interpreted. -/
theorem repl_halts_at_first_error (fuel : Nat) (pre : List String)
    (bad : String) (rest : List String)
    (hpre : ∀ l ∈ pre, isOk (interpret l fuel) = true)
    (hbad : isOk (interpret bad fuel) = false) :
    repl fuel (pre ++ bad :: rest) =
      (pre.map (fun l => interpret l fuel) ++ [interpret bad fuel], .panicked) := by
  induction pre with
  | nil =>
    cases h0 : interpret bad fuel with
    | ok st => rw [h0] at hbad; simp [isOk] at hbad
    | err e => simp [repl, h0]
    | noFuel => simp [repl, h0]
  | cons l pre ih =>
    have hl : isOk (interpret l fuel) = true := hpre l (by simp)
    cases h0 : interpret l fuel with
    | ok st =>
      have := ih (fun x hx => hpre x (by simp [hx]))
      simp [repl, h0, this]
    | err e => rw [h0] at hl; simp [isOk] at hl
    | noFuel => rw [h0] at hl; simp [isOk] at hl

/-- C5 witness for the amended claim: one good line, then a bad line, then
a line that is never reached. -/
theorem repl_halts_at_first_error_witness :
    repl 80 ["var a = 1;", srcBadLine, "var z = 3;"] =
      (["var a = 1;"].map (fun l => interpret l 80) ++ [interpret srcBadLine 80],
        .panicked) :=
  repl_halts_at_first_error 80 ["var a = 1;"] srcBadLine ["var z = 3;"]
    (by decide) (by decide)

/-- C6: every line the REPL interprets is a fresh, independent session:
the i-th outcome the loop produces equals the outcome of interpreting the
i-th line alone (by definition of `interpret`, starting from the fresh
`initInterp` heap, interner and globals), so nothing persists from one
line to the next. -/
theorem repl_fresh_sessions (fuel : Nat) (lines : List String) (i : Nat)
    (h : i < ((repl fuel lines).1).length) :
    ((repl fuel lines).1)[i]? = (lines[i]?).map (fun l => interpret l fuel) := by
  induction lines generalizing i with
  | nil => simp [repl] at h
  | cons l rest ih =>
    cases h0 : interpret l fuel with
    | ok st =>
      match i with
      | 0 => simp [repl, h0]
      | i + 1 =>
        simp only [repl, h0] at h ⊢
        simpa using ih i (by simpa using h)
    | err e =>
      match i with
      | 0 => simp [repl, h0]
      | i + 1 => simp [repl, h0] at h
    | noFuel =>
      match i with
      | 0 => simp [repl, h0]
      | i + 1 => simp [repl, h0] at h

/-- C6 witness: a two-line session; the second outcome equals interpreting
the second line alone. -/
theorem repl_fresh_sessions_witness :
    ((repl 50 ["var a = 1;", "var b = 2;"]).1)[1]? =
      (["var a = 1;", "var b = 2;"][1]?).map (fun l => interpret l 50) :=
  repl_fresh_sessions 50 ["var a = 1;", "var b = 2;"] 1 (by decide)

/-- C7: `main` dispatches on the number of arguments after the program
name: zero arguments enter the REPL on standard input, exactly one runs
the named file through `run_file`, and more than one aborts (the
`panic!()` usage error). -/
theorem main_dispatch_on_argc :
    (∀ fs lines fuel, mainRun fs lines fuel [] =
      .ranRepl (repl fuel lines).1 (repl fuel lines).2) ∧
    (∀ fs lines fuel p, mainRun fs lines fuel [p] = .ranFile (run_file fs p fuel)) ∧
    (∀ fs lines fuel p q rest, mainRun fs lines fuel (p :: q :: rest) = .usageAbort) :=
  ⟨fun _ _ _ => rfl, fun _ _ _ _ => rfl, fun _ _ _ _ _ _ => rfl⟩

/-- C8: `interpret` returns `CompileError` exactly when the parser
recorded at least one error; when compilation succeeds it runs the
compiled top-level program in the VM and returns the VM's result. -/
theorem interpret_compile_error_iff (src : String) (fuel : Nat) :
    (interpret src fuel = .err .CompileError ↔ (parseProgram src).2 ≠ []) ∧
    ((parseProgram src).2 = [] →
      interpret src fuel = liftRunOutcome (runScript (parseProgram src).1 fuel)) := by
  constructor
  · constructor
    · intro h
      intro hnil
      have he : (parseProgram src).2.isEmpty = true := by simp [hnil]
      rw [interpret, if_pos he] at h
      exact liftRunOutcome_ne_compile _ h
    · intro h
      have he : (parseProgram src).2.isEmpty = false := by
        cases hp : (parseProgram src).2 with
        | nil => exact absurd hp h
        | cons a l => simp
      rw [interpret, if_neg (by simp [he])]
  · intro h
    have he : (parseProgram src).2.isEmpty = true := by simp [h]
    rw [interpret, if_pos he]

/-- C8 witness: a compiling program is handed to the VM. -/
theorem interpret_compile_error_iff_witness :
    interpret "print 1;" 50 = liftRunOutcome (runScript (parseProgram "print 1;").1 50) :=
  (interpret_compile_error_iff "print 1;" 50).2 (by decide)

/-- C9: when compilation fails, `interpret` returns `CompileError` before
any VM is constructed: the session produces no runtime output, and its
only observable effects are the compile-time error reports. -/
theorem compile_error_atomic (src : String) (fuel : Nat)
    (h : (parseProgram src).2 ≠ []) :
    interpret src fuel = .err .CompileError ∧
    interpretStdout src fuel = [] ∧
    interpretReports src = (parseProgram src).2 := by
  have he : (parseProgram src).2.isEmpty = false := by
    cases hp : (parseProgram src).2 with
    | nil => exact absurd hp h
    | cons a l => simp
  refine ⟨?_, ?_, rfl⟩
  · rw [interpret, if_neg (by simp [he])]
  · rw [interpretStdout, if_neg (by simp [he])]

/-- C9 witness: the bad line produces only its compile report. -/
theorem compile_error_atomic_witness :
    interpret srcBadLine 5 = .err .CompileError ∧
    interpretStdout srcBadLine 5 = [] ∧
    interpretReports srcBadLine = (parseProgram srcBadLine).2 :=
  compile_error_atomic srcBadLine 5 (by decide)

/-- C10: in file mode, an unreadable file makes the program panic (the
`unwrap` on the read), and a file whose interpretation fails also makes it
panic (the `unwrap` on `interpret`) — no usage error, no recovery. -/
theorem run_file_panics (fs : String → Option String) (p : String) (fuel : Nat) :
    (fs p = none → run_file fs p fuel = .panicked) ∧
    (∀ src, fs p = some src → isOk (interpret src fuel) = false →
      run_file fs p fuel = .panicked) := by
  constructor
  · intro h
    simp [run_file, h]
  · intro src h hf
    rw [run_file, h]
    cases h0 : interpret src fuel with
    | ok st => rw [h0] at hf; simp [isOk] at hf
    | err e => simp [h0]
    | noFuel => simp [h0]

/-! Lemmas for the hash table development. -/

theorem countW_cons (f : Entry → Nat) (e : Entry) (es : List Entry) :
    countW f (e :: es) = f e + countW f es := rfl

theorem countW_set (f : Entry → Nat) (es : List Entry) (i : Nat) (e0 e1 : Entry)
    (h : es[i]? = some e0) :
    countW f (es.set i e1) + f e0 = countW f es + f e1 := by
  induction es generalizing i with
  | nil => simp at h
  | cons a es ih =>
    cases i with
    | zero =>
      rw [List.getElem?_cons_zero] at h
      injection h with h2
      subst h2
      simp [countW_cons, List.set]
      omega
    | succ i =>
      rw [List.getElem?_cons_succ] at h
      have := ih i h
      simp [countW_cons, List.set]
      omega

theorem countW_pos (f : Entry → Nat) (es : List Entry) (i : Nat) (e : Entry)
    (h : es[i]? = some e) : f e ≤ countW f es := by
  induction es generalizing i with
  | nil => simp at h
  | cons a es ih =>
    cases i with
    | zero =>
      rw [List.getElem?_cons_zero] at h
      injection h with h2
      subst h2
      simp [countW_cons]
    | succ i =>
      rw [List.getElem?_cons_succ] at h
      have := ih i h
      simp [countW_cons]
      omega

theorem countW_replicate (f : Entry → Nat) (n : Nat) (e : Entry) :
    countW f (List.replicate n e) = n * f e := by
  induction n with
  | zero => simp [countW]
  | succ n ih => simp [List.replicate, countW_cons, ih]; ring

theorem get?_replicate (n i : Nat) (e : Entry) (h : i < n) :
    (List.replicate n e)[i]? = some e := by
  induction n generalizing i with
  | zero => omega
  | succ n ih =>
    cases i with
    | zero => simp [List.replicate]
    | succ i => simpa [List.replicate] using ih i (by omega)

/-- Every bucket of a nonempty table that is not all-live-or-tombstone has
an empty slot: counting argument. -/
theorem exists_empty_of_count_lt (es : List Entry)
    (h : numLive es + numTomb es < es.length) :
    ∃ i : Nat, es[i]? = some Entry.empty := by
  induction es with
  | nil => simp at h
  | cons e es ih =>
    cases e with
    | empty => exact ⟨0, by simp⟩
    | tombstone =>
      have : numLive es + numTomb es < es.length := by
        simp [numLive, numTomb, countW_cons, liveW, tombW] at h ⊢
        omega
      obtain ⟨i, hi⟩ := ih this
      exact ⟨i + 1, by simpa using hi⟩
    | live k v =>
      have : numLive es + numTomb es < es.length := by
        simp [numLive, numTomb, countW_cons, liveW, tombW] at h ⊢
        omega
      obtain ⟨i, hi⟩ := ih this
      exact ⟨i + 1, by simpa using hi⟩

/-- Probe offsets below the capacity map to distinct buckets. -/
theorem probe_inj (len hk q1 q2 : Nat) (h1 : q1 < len) (h2 : q2 < len)
    (he : (hk + q1) % len = (hk + q2) % len) : q1 = q2 := by
  have m1 : (hk % len + q1) % len = (hk % len + q2) % len := by
    rw [Nat.mod_add_mod, Nat.mod_add_mod]
    exact he
  have hlen : 0 < len := by omega
  have hr := Nat.mod_lt hk hlen
  rcases Nat.lt_or_ge (hk % len + q1) len with c1 | c1
  · rcases Nat.lt_or_ge (hk % len + q2) len with c2 | c2
    · rw [Nat.mod_eq_of_lt c1, Nat.mod_eq_of_lt c2] at m1
      omega
    · have e2 : (hk % len + q2) % len = hk % len + q2 - len := by
        rw [Nat.mod_eq_sub_mod c2, Nat.mod_eq_of_lt (by omega)]
      rw [Nat.mod_eq_of_lt c1, e2] at m1
      omega
  · have e1 : (hk % len + q1) % len = hk % len + q1 - len := by
      rw [Nat.mod_eq_sub_mod c1, Nat.mod_eq_of_lt (by omega)]
    rcases Nat.lt_or_ge (hk % len + q2) len with c2 | c2
    · rw [e1, Nat.mod_eq_of_lt c2] at m1
      omega
    · have e2 : (hk % len + q2) % len = hk % len + q2 - len := by
        rw [Nat.mod_eq_sub_mod c2, Nat.mod_eq_of_lt (by omega)]
      rw [e1, e2] at m1
      omega

/-- Every bucket is hit by some probe offset below the capacity. -/
theorem probe_surj (len hk i : Nat) (hlen : 0 < len) (hi : i < len) :
    ∃ p, p < len ∧ (hk + p) % len = i := by
  classical
  let f : Fin len → Fin len := fun p => ⟨(hk + p.val) % len, Nat.mod_lt _ hlen⟩
  have hinj : Function.Injective f := by
    intro a b hab
    have := probe_inj len hk a.val b.val a.isLt b.isLt (congrArg Fin.val hab)
    exact Fin.ext this
  have hsurj : Function.Surjective f := Finite.surjective_of_injective hinj
  obtain ⟨p, hp⟩ := hsurj ⟨i, hi⟩
  exact ⟨p.val, p.isLt, congrArg Fin.val hp⟩

theorem get?_isSome_of_lt (es : List Entry) (i : Nat) (h : i < es.length) :
    ∃ e, es[i]? = some e := ⟨es[i], List.getElem?_eq_getElem h⟩

/-- The probe loop finds a live key it can reach along a prefix of
non-stopping buckets (tombstones or other keys). -/
theorem findFrom_found (es : List Entry) (k : String) (hk : Nat) (v : Value) (p : Nat)
    (hp : es[(hk + p) % es.length]? = some (Entry.live k v)) :
    ∀ n q tomb, q ≤ p → p < q + n →
      (∀ r, q ≤ r → r < p →
        es[(hk + r) % es.length]? = some Entry.tombstone ∨
        ∃ k2 v2, es[(hk + r) % es.length]? = some (Entry.live k2 v2) ∧ k2 ≠ k) →
      findFrom es k hk n q tomb = some ((hk + p) % es.length, true) := by
  intro n
  induction n with
  | zero => intro q tomb h1 h2 _; omega
  | succ n ih =>
    intro q tomb h1 h2 hpass
    by_cases hqp : q = p
    · subst hqp
      simp [findFrom, hp]
    · have hq : q < p := by omega
      rcases hpass q (Nat.le_refl q) hq with ht | ⟨k2, v2, hl, hne⟩
      · simp only [findFrom, ht]
        exact ih (q + 1) _ (by omega) (by omega)
          (fun r hr1 hr2 => hpass r (by omega) hr2)
      · simp only [findFrom, hl, if_neg hne]
        exact ih (q + 1) tomb (by omega) (by omega)
          (fun r hr1 hr2 => hpass r (by omega) hr2)

/-- The probe loop for an absent key stops at the first tombstone of the
chain, or at the empty bucket ending it: the returned insertion point is
on the key's probe sequence with no empty bucket strictly before it. -/
theorem findFrom_absent (es : List Entry) (k : String) (hk : Nat)
    (habs : KeyAbsent es k) :
    ∀ n q tomb, q + n ≤ es.length →
      (∃ pe, q ≤ pe ∧ pe < q + n ∧ es[(hk + pe) % es.length]? = some Entry.empty) →
      (∀ r, r < q → es[(hk + r) % es.length]? ≠ some Entry.empty) →
      (∀ t, tomb = some t → ∃ pt, pt < q ∧ t = (hk + pt) % es.length ∧
        es[t]? = some Entry.tombstone) →
      ∃ p2, p2 < es.length ∧
        findFrom es k hk n q tomb = some ((hk + p2) % es.length, false) ∧
        (es[(hk + p2) % es.length]? = some Entry.empty ∨
         es[(hk + p2) % es.length]? = some Entry.tombstone) ∧
        ∀ r, r < p2 → es[(hk + r) % es.length]? ≠ some Entry.empty := by
  intro n
  induction n with
  | zero =>
    rintro q tomb _ ⟨pe, h1, h2, _⟩ _ _
    omega
  | succ n ih =>
    rintro q tomb hlen ⟨pe, hpe1, hpe2, hpe3⟩ hnoe htomb
    have hlpos : 0 < es.length := by omega
    have hidx : (hk + q) % es.length < es.length := Nat.mod_lt _ hlpos
    obtain ⟨e, he⟩ := get?_isSome_of_lt es _ hidx
    cases e with
    | empty =>
      cases tomb with
      | none =>
        refine ⟨q, by omega, ?_, Or.inl he, hnoe⟩
        simp only [findFrom, he, Option.getD_none]
      | some t =>
        obtain ⟨pt, hpt1, hpt2, hpt3⟩ := htomb t rfl
        refine ⟨pt, by omega, ?_, Or.inr (hpt2 ▸ hpt3), fun r hr => hnoe r (by omega)⟩
        simp only [findFrom, he, Option.getD_some]
        rw [hpt2]
    | tombstone =>
      have hpeq : pe ≠ q := by
        intro hcon
        rw [hcon, he] at hpe3
        exact Entry.noConfusion (Option.some.inj hpe3)
      simp only [findFrom, he]
      apply ih (q + 1) _ (by omega) ⟨pe, by omega, by omega, hpe3⟩
      · intro r hr
        rcases Nat.lt_or_ge r q with hrq | hrq
        · exact hnoe r hrq
        · have : r = q := by omega
          rw [this, he]
          intro hcon
          exact Entry.noConfusion (Option.some.inj hcon)
      · intro t ht
        cases tomb with
        | none =>
          simp only [Option.getD_none] at ht
          injection ht with ht
          exact ⟨q, by omega, ht.symm, ht ▸ he⟩
        | some t0 =>
          simp only [Option.getD_some] at ht
          injection ht with ht
          obtain ⟨pt, hpt1, hpt2, hpt3⟩ := htomb t0 rfl
          exact ⟨pt, by omega, ht ▸ hpt2, ht ▸ hpt3⟩
    | live k2 v2 =>
      have hne : k2 ≠ k := by
        intro hcon
        exact habs _ v2 (hcon ▸ he)
      have hpeq : pe ≠ q := by
        intro hcon
        rw [hcon, he] at hpe3
        exact Entry.noConfusion (Option.some.inj hpe3)
      simp only [findFrom, he, if_neg hne]
      apply ih (q + 1) tomb (by omega) ⟨pe, by omega, by omega, hpe3⟩
      · intro r hr
        rcases Nat.lt_or_ge r q with hrq | hrq
        · exact hnoe r hrq
        · have : r = q := by omega
          rw [this, he]
          intro hcon
          exact Entry.noConfusion (Option.some.inj hcon)
      · intro t ht
        obtain ⟨pt, hpt1, hpt2, hpt3⟩ := htomb t ht
        exact ⟨pt, by omega, hpt2, hpt3⟩

/-- `find_entry` hits the (unique) live entry of a present key. -/
theorem findEntry_found_at (es : List Entry) (k : String) (v : Value) (i : Nat)
    (hi : es[i]? = some (Entry.live k v))
    (hchain : ChainOK es k i)
    (huniq : ∀ j w, es[j]? = some (Entry.live k w) → j = i) :
    findEntry es k = some (i, true) := by
  obtain ⟨p, hplen, hpi, hpre⟩ := hchain
  subst hpi
  apply findFrom_found es k (fnv1a k) v p hi es.length 0 none (Nat.zero_le p) (by omega)
  intro r hr1 hr2
  have hrlen : r < es.length := by omega
  have hlpos : 0 < es.length := by omega
  have hidx : (fnv1a k + r) % es.length < es.length := Nat.mod_lt _ hlpos
  obtain ⟨e, he⟩ := get?_isSome_of_lt es _ hidx
  cases e with
  | empty => exact absurd he (hpre r hr2)
  | tombstone => exact Or.inl he
  | live k2 v2 =>
    refine Or.inr ⟨k2, v2, he, ?_⟩
    intro hcon
    subst hcon
    have := huniq _ v2 he
    have := probe_inj es.length (fnv1a k2) r p hrlen hplen this
    omega

/-- `find_entry` for an absent key, when an empty bucket exists, returns a
reusable bucket (first tombstone or final empty) on the key's probe
sequence with no empty bucket before it. -/
theorem findEntry_absent_of (es : List Entry) (k : String)
    (habs : KeyAbsent es k)
    (hroom : numLive es + numTomb es < es.length) :
    ∃ p2, p2 < es.length ∧
      findEntry es k = some ((fnv1a k + p2) % es.length, false) ∧
      (es[(fnv1a k + p2) % es.length]? = some Entry.empty ∨
       es[(fnv1a k + p2) % es.length]? = some Entry.tombstone) ∧
      ∀ r, r < p2 → es[(fnv1a k + r) % es.length]? ≠ some Entry.empty := by
  have hlpos : 0 < es.length := by omega
  obtain ⟨i, hi⟩ := exists_empty_of_count_lt es hroom
  have hilen : i < es.length := by
    by_contra hcon
    rw [List.getElem?_eq_none (by omega)] at hi
    exact Option.noConfusion hi
  obtain ⟨pe, hpe1, hpe2⟩ := probe_surj es.length (fnv1a k) i hlpos hilen
  exact findFrom_absent es k (fnv1a k) habs es.length 0 none (by omega)
    ⟨pe, Nat.zero_le pe, by omega, hpe2 ▸ hi⟩
    (fun r hr => absurd hr (Nat.not_lt_zero r))
    (fun t ht => Option.noConfusion ht)

/-- Writing a non-empty entry anywhere preserves every intact probe
chain: chains only require the buckets before their target to be
non-empty, and the write never empties a bucket. -/
theorem chainOK_set (es : List Entry) (j : Nat) (e2 : Entry) (k : String) (i : Nat)
    (hch : ChainOK es k i) (hne : e2 ≠ Entry.empty) :
    ChainOK (es.set j e2) k i := by
  by_cases hjlen : j < es.length
  · obtain ⟨p, hp1, hp2, hp3⟩ := hch
    refine ⟨p, by simpa using hp1, by simpa using hp2, ?_⟩
    intro q hq
    rw [List.length_set, List.getElem?_set]
    by_cases hj : j = (fnv1a k + q) % es.length
    · rw [if_pos hj, if_pos hjlen]
      intro hcon
      exact hne (Option.some.inj hcon)
    · rw [if_neg hj]
      exact hp3 q hq
  · rw [List.set_eq_of_length_le (by omega)]
    exact hch

/-- Presence of a key other than the written one is unchanged by a bucket
write that neither removes nor adds that key. -/
theorem present_iff_set (es : List Entry) (j : Nat) (e2 : Entry)
    (k2 : String) (hjlen : j < es.length)
    (h0 : ∀ w, es[j]? ≠ some (Entry.live k2 w))
    (h1 : ∀ w, e2 ≠ Entry.live k2 w) (w : Value) :
    (∃ i : Nat, (es.set j e2)[i]? = some (Entry.live k2 w)) ↔
      (∃ i : Nat, es[i]? = some (Entry.live k2 w)) := by
  constructor
  · rintro ⟨i, hi⟩
    by_cases hij : i = j
    · subst hij
      rw [List.getElem?_set_self hjlen] at hi
      exact absurd (Option.some.inj hi) (h1 w)
    · rw [List.getElem?_set_ne (fun hcon => hij hcon.symm)] at hi
      exact ⟨i, hi⟩
  · rintro ⟨i, hi⟩
    by_cases hij : i = j
    · subst hij
      exact absurd hi (h0 w)
    · refine ⟨i, ?_⟩
      rw [List.getElem?_set_ne (fun hcon => hij hcon.symm)]
      exact hi

/-- Under the invariant, `get` returns the value of a present key. -/
theorem get_present (t : Table) (k : String) (v : Value) (i : Nat)
    (hInv : TableInv t) (hi : t.entries[i]? = some (Entry.live k v)) :
    t.get k = some v := by
  have hcnt : t.count ≠ 0 := by
    have h1 : liveW (Entry.live k v) ≤ numLive t.entries :=
      countW_pos liveW t.entries i _ hi
    have h2 := hInv.count_eq
    simp [liveW] at h1
    omega
  have hfound : findEntry t.entries k = some (i, true) :=
    findEntry_found_at t.entries k v i hi (hInv.chains i k v hi)
      (fun j w hj => (hInv.uniq j i k w v hj hi).1)
  rw [Table.get, if_neg hcnt, hfound]
  simp [hi]

/-- Under the invariant, `get` returns `none` for an absent key. -/
theorem get_absent (t : Table) (k : String) (hInv : TableInv t)
    (habs : KeyAbsent t.entries k) : t.get k = none := by
  by_cases hcnt : t.count = 0
  · rw [Table.get, if_pos hcnt]
  · have hroom : numLive t.entries + numTomb t.entries < t.entries.length := by
      have h1 := hInv.count_eq
      have h2 := hInv.load
      omega
    obtain ⟨p2, _, hfind, _, _⟩ := findEntry_absent_of t.entries k habs hroom
    rw [Table.get, if_neg hcnt, hfind]

/-- Every key is either present (at a unique live bucket) or absent. -/
theorem present_or_absent (es : List Entry) (k : String) :
    (∃ (i : Nat) (v : Value), es[i]? = some (Entry.live k v)) ∨ KeyAbsent es k := by
  classical
  by_cases h : ∃ (i : Nat) (v : Value), es[i]? = some (Entry.live k v)
  · exact Or.inl h
  · right
    intro i v hi
    exact h ⟨i, v, hi⟩

/-- One re-insertion during rehashing: the key is new and the fresh array
has no tombstones, so the entry lands in an empty bucket, with an intact
chain, preserving uniqueness and all other chains. -/
theorem reinsert_spec (es : List Entry) (k0 : String) (v0 : Value)
    (hlen : 0 < es.length)
    (htomb : numTomb es = 0)
    (huniq : UniqKeys es)
    (hchains : ChainsOK es)
    (habs : KeyAbsent es k0)
    (hroom : numLive es < es.length) :
    (reinsert es k0 v0).length = es.length ∧
    numTomb (reinsert es k0 v0) = 0 ∧
    numLive (reinsert es k0 v0) = numLive es + 1 ∧
    UniqKeys (reinsert es k0 v0) ∧
    ChainsOK (reinsert es k0 v0) ∧
    (∀ (k : String) (w : Value), Present (reinsert es k0 v0) k w ↔
      (Present es k w ∨ (k = k0 ∧ w = v0))) := by
  have hroom2 : numLive es + numTomb es < es.length := by omega
  obtain ⟨p2, hp2len, hfind, hslot, hpre⟩ := findEntry_absent_of es k0 habs hroom2
  set j := (fnv1a k0 + p2) % es.length with hjdef
  have hjlen : j < es.length := Nat.mod_lt _ hlen
  have hempty : es[j]? = some Entry.empty := by
    rcases hslot with h | h
    · exact h
    · have := countW_pos tombW es j _ h
      simp [tombW] at this
      rw [← numTomb] at this
      omega
  have heq : reinsert es k0 v0 = es.set j (Entry.live k0 v0) := by
    rw [reinsert, hfind]
  rw [heq]
  have hlive_ne_empty : (Entry.live k0 v0) ≠ Entry.empty := by
    intro hcon
    exact Entry.noConfusion hcon
  refine ⟨List.length_set es j _, ?_, ?_, ?_, ?_, ?_⟩
  · have := countW_set tombW es j Entry.empty (Entry.live k0 v0) hempty
    simp [tombW] at this
    rw [numTomb] at htomb ⊢
    omega
  · have := countW_set liveW es j Entry.empty (Entry.live k0 v0) hempty
    simp [liveW] at this
    rw [numLive, numLive]
    omega
  · intro i1 i2 k v w h1 h2
    by_cases e1 : i1 = j
    · by_cases e2 : i2 = j
      · subst e1; subst e2
        rw [List.getElem?_set_self hjlen] at h1 h2
        injection h1 with h1
        injection h2 with h2
        injection h1 with hk1 hv1
        injection h2 with hk2 hv2
        exact ⟨rfl, hv1.symm.trans hv2⟩
      · subst e1
        rw [List.getElem?_set_self hjlen] at h1
        injection h1 with h1
        injection h1 with hk1 hv1
        rw [List.getElem?_set_ne (fun hcon => e2 hcon.symm)] at h2
        exact absurd h2 (hk1 ▸ habs i2 w)
    · by_cases e2 : i2 = j
      · subst e2
        rw [List.getElem?_set_self hjlen] at h2
        injection h2 with h2
        injection h2 with hk2 hv2
        rw [List.getElem?_set_ne (fun hcon => e1 hcon.symm)] at h1
        exact absurd h1 (hk2 ▸ habs i1 v)
      · rw [List.getElem?_set_ne (fun hcon => e1 hcon.symm)] at h1
        rw [List.getElem?_set_ne (fun hcon => e2 hcon.symm)] at h2
        exact huniq i1 i2 k v w h1 h2
  · intro i k v hi
    by_cases e1 : i = j
    · subst e1
      rw [List.getElem?_set_self hjlen] at hi
      injection hi with hi
      injection hi with hk1 hv1
      subst hk1
      refine ⟨p2, ?_, ?_, ?_⟩
      · rw [List.length_set]
        exact hp2len
      · rw [List.length_set]
      · intro q hq
        rw [List.length_set, List.getElem?_set]
        by_cases hj2 : j = (fnv1a k0 + q) % es.length
        · rw [if_pos hj2, if_pos hjlen]
          intro hcon
          exact hlive_ne_empty (Option.some.inj hcon)
        · rw [if_neg hj2]
          exact hpre q hq
    · rw [List.getElem?_set_ne (fun hcon => e1 hcon.symm)] at hi
      exact chainOK_set es j _ k i (hchains i k v hi) hlive_ne_empty
  · intro k w
    constructor
    · rintro ⟨i, hi⟩
      by_cases e1 : i = j
      · subst e1
        rw [List.getElem?_set_self hjlen] at hi
        injection hi with hi
        injection hi with hk1 hv1
        exact Or.inr ⟨hk1.symm, hv1.symm⟩
      · rw [List.getElem?_set_ne (fun hcon => e1 hcon.symm)] at hi
        exact Or.inl ⟨i, hi⟩
    · rintro (⟨i, hi⟩ | ⟨hk, hw⟩)
      · refine ⟨i, ?_⟩
        have e1 : i ≠ j := by
          intro hcon
          rw [hcon, hempty] at hi
          exact Entry.noConfusion (Option.some.inj hi)
        rw [List.getElem?_set_ne (fun hcon => e1 hcon.symm)]
        exact hi
      · subst hk; subst hw
        exact ⟨j, List.getElem?_set_self hjlen⟩

theorem present_cons (e : Entry) (l : List Entry) (k : String) (w : Value) :
    Present (e :: l) k w ↔ (e = Entry.live k w ∨ Present l k w) := by
  constructor
  · rintro ⟨i, hi⟩
    cases i with
    | zero =>
      rw [List.getElem?_cons_zero] at hi
      exact Or.inl (Option.some.inj hi)
    | succ i =>
      rw [List.getElem?_cons_succ] at hi
      exact Or.inr ⟨i, hi⟩
  · rintro (he | ⟨i, hi⟩)
    · exact ⟨0, by rw [List.getElem?_cons_zero, he]⟩
    · exact ⟨i + 1, by rw [List.getElem?_cons_succ]; exact hi⟩

theorem uniqKeys_tail (e : Entry) (l : List Entry) (h : UniqKeys (e :: l)) :
    UniqKeys l := by
  intro i j k v w h1 h2
  have := h (i + 1) (j + 1) k v w
    (by rw [List.getElem?_cons_succ]; exact h1)
    (by rw [List.getElem?_cons_succ]; exact h2)
  exact ⟨by omega, this.2⟩

theorem keyAbsent_tail (e : Entry) (l : List Entry) (k : String)
    (h : KeyAbsent (e :: l) k) : KeyAbsent l k := by
  intro i v hi
  exact h (i + 1) v (by rw [List.getElem?_cons_succ]; exact hi)

/-- A live head key occurs nowhere in the tail of a unique-keyed array. -/
theorem keyAbsent_of_head (k0 : String) (v0 : Value) (l : List Entry)
    (h : UniqKeys (Entry.live k0 v0 :: l)) : KeyAbsent l k0 := by
  intro i v hi
  have := h 0 (i + 1) k0 v0 v (by rw [List.getElem?_cons_zero])
    (by rw [List.getElem?_cons_succ]; exact hi)
  omega

/-- The rehashing fold re-inserts the live entries of `l` into the fresh
array one at a time, preserving the bucket-array invariants, counting
exactly the live entries, and ending with precisely the union of the
already-inserted keys and the keys of `l`. -/
theorem reinsertFold_spec (N : Nat) (hN : 0 < N) (l : List Entry) :
    ∀ (es : List Entry) (c : Nat),
      es.length = N → c = numLive es → numTomb es = 0 →
      UniqKeys es → ChainsOK es → UniqKeys l →
      (∀ (k : String) (w : Value), Present es k w → KeyAbsent l k) →
      numLive es + numLive l ≤ N →
      (l.foldl rehashStep (es, c)).1.length = N ∧
      (l.foldl rehashStep (es, c)).2 = numLive (l.foldl rehashStep (es, c)).1 ∧
      numTomb (l.foldl rehashStep (es, c)).1 = 0 ∧
      UniqKeys (l.foldl rehashStep (es, c)).1 ∧
      ChainsOK (l.foldl rehashStep (es, c)).1 ∧
      numLive (l.foldl rehashStep (es, c)).1 = numLive es + numLive l ∧
      (∀ (k : String) (w : Value), Present (l.foldl rehashStep (es, c)).1 k w ↔
        (Present es k w ∨ Present l k w)) := by
  induction l with
  | nil =>
    intro es c h1 h2 h3 h4 h5 _ _ _
    refine ⟨h1, ?_, h3, h4, h5, ?_, ?_⟩
    · simpa using h2
    · simp [numLive, countW]
    · intro k w
      simp only [List.foldl_nil]
      constructor
      · exact Or.inl
      · rintro (h | ⟨i, hi⟩)
        · exact h
        · simp at hi
  | cons e l ih =>
    intro es c h1 h2 h3 h4 h5 hul hdis hcap
    rw [List.foldl_cons]
    cases e with
    | empty =>
      have hstep : rehashStep (es, c) Entry.empty = (es, c) := rfl
      rw [hstep]
      have hres := ih es c h1 h2 h3 h4 h5 (uniqKeys_tail _ _ hul)
        (fun k w hp => keyAbsent_tail _ _ _ (hdis k w hp))
        (by simpa [numLive, countW_cons, liveW] using hcap)
      refine ⟨hres.1, hres.2.1, hres.2.2.1, hres.2.2.2.1, hres.2.2.2.2.1, ?_, ?_⟩
      · rw [hres.2.2.2.2.2.1]
        simp [numLive, countW_cons, liveW]
      · intro k w
        rw [hres.2.2.2.2.2.2 k w, present_cons]
        constructor
        · rintro (h | h)
          · exact Or.inl h
          · exact Or.inr (Or.inr h)
        · rintro (h | h | h)
          · exact Or.inl h
          · exact absurd h.symm (fun hc => Entry.noConfusion hc)
          · exact Or.inr h
    | tombstone =>
      have hstep : rehashStep (es, c) Entry.tombstone = (es, c) := rfl
      rw [hstep]
      have hres := ih es c h1 h2 h3 h4 h5 (uniqKeys_tail _ _ hul)
        (fun k w hp => keyAbsent_tail _ _ _ (hdis k w hp))
        (by simpa [numLive, countW_cons, liveW] using hcap)
      refine ⟨hres.1, hres.2.1, hres.2.2.1, hres.2.2.2.1, hres.2.2.2.2.1, ?_, ?_⟩
      · rw [hres.2.2.2.2.2.1]
        simp [numLive, countW_cons, liveW]
      · intro k w
        rw [hres.2.2.2.2.2.2 k w, present_cons]
        constructor
        · rintro (h | h)
          · exact Or.inl h
          · exact Or.inr (Or.inr h)
        · rintro (h | h | h)
          · exact Or.inl h
          · exact absurd h.symm (fun hc => Entry.noConfusion hc)
          · exact Or.inr h
    | live k0 v0 =>
      have hstep : rehashStep (es, c) (Entry.live k0 v0) =
          (reinsert es k0 v0, c + 1) := rfl
      rw [hstep]
      have habs0 : KeyAbsent es k0 := by
        intro i v hi
        exact hdis k0 v ⟨i, hi⟩ 0 v0 (by rw [List.getElem?_cons_zero])
      have hcons : numLive (Entry.live k0 v0 :: l) = 1 + numLive l := by
        simp [numLive, countW_cons, liveW]
      have hroom : numLive es < es.length := by
        rw [h1]
        omega
      obtain ⟨r1, r2, r3, r4, r5, r6⟩ := reinsert_spec es k0 v0
        (by omega) h3 h4 h5 habs0 hroom
      have hres := ih (reinsert es k0 v0) (c + 1)
        (by rw [r1, h1]) (by rw [r3, h2]) r2 r4 r5 (uniqKeys_tail _ _ hul)
        ?_ ?_
      · refine ⟨hres.1, hres.2.1, hres.2.2.1, hres.2.2.2.1, hres.2.2.2.2.1, ?_, ?_⟩
        · rw [hres.2.2.2.2.2.1, r3, hcons]
          omega
        · intro k w
          rw [hres.2.2.2.2.2.2 k w, present_cons, r6 k w]
          constructor
          · rintro ((h | ⟨hk, hw⟩) | h)
            · exact Or.inl h
            · subst hk; subst hw
              exact Or.inr (Or.inl rfl)
            · exact Or.inr (Or.inr h)
          · rintro (h | h | h)
            · exact Or.inl (Or.inl h)
            · injection h.symm with hk hw
              exact Or.inl (Or.inr ⟨hk, hw⟩)
            · exact Or.inr h
      · intro k w hp
        rcases (r6 k w).mp hp with h | ⟨hk, hw⟩
        · exact keyAbsent_tail _ _ _ (hdis k w h)
        · rw [hk]
          exact keyAbsent_of_head k0 v0 l hul
      · rw [r3]
        rw [hcons] at hcap
        omega

/-- Rehashing preserves the live entries exactly (same keys and values),
drops all tombstones, recounts, and re-establishes all structural
invariants at the grown capacity. -/
theorem adjustCapacity_spec (t : Table) (hInv : TableInv t) :
    t.adjustCapacity.entries.length = growCapacity t.entries.length ∧
    t.adjustCapacity.count = numLive t.adjustCapacity.entries ∧
    numTomb t.adjustCapacity.entries = 0 ∧
    UniqKeys t.adjustCapacity.entries ∧
    ChainsOK t.adjustCapacity.entries ∧
    numLive t.adjustCapacity.entries = numLive t.entries ∧
    (∀ (k : String) (w : Value),
      Present t.adjustCapacity.entries k w ↔ Present t.entries k w) := by
  have hN : 0 < growCapacity t.entries.length := by
    rw [growCapacity]
    split <;> omega
  have hrepl : ∀ (i : Nat) (e : Entry),
      (List.replicate (growCapacity t.entries.length) Entry.empty)[i]? = some e →
      e = Entry.empty := by
    intro i e he
    by_cases hi : i < growCapacity t.entries.length
    · rw [get?_replicate _ _ _ hi] at he
      exact (Option.some.inj he).symm
    · rw [List.getElem?_eq_none (by simp; omega)] at he
      exact Option.noConfusion he
  have hcapa : numLive (List.replicate (growCapacity t.entries.length) Entry.empty) +
      numLive t.entries ≤ growCapacity t.entries.length := by
    have h0 : numLive (List.replicate (growCapacity t.entries.length) Entry.empty) = 0 := by
      rw [numLive, countW_replicate]
      simp [liveW]
    have h1 : numLive t.entries ≤ t.count := by
      have := hInv.count_eq
      omega
    have h2 := hInv.load
    rw [h0, growCapacity]
    rcases hInv.cap8 with h3 | h3 <;> split <;> omega
  obtain ⟨f1, f2, f3, f4, f5, f6, f7⟩ :=
    reinsertFold_spec (growCapacity t.entries.length) hN t.entries
      (List.replicate (growCapacity t.entries.length) Entry.empty) 0
      (List.length_replicate _ _)
      (by rw [numLive, countW_replicate]; simp [liveW])
      (by rw [numTomb, countW_replicate]; simp [tombW])
      (by
        intro i j k v w h1 _
        exact absurd (hrepl i _ h1) (fun hc => Entry.noConfusion hc))
      (by
        intro i k v h1
        exact absurd (hrepl i _ h1) (fun hc => Entry.noConfusion hc))
      hInv.uniq
      (by
        rintro k w ⟨i, hi⟩
        exact absurd (hrepl i _ hi) (fun hc => Entry.noConfusion hc))
      hcapa
  have hdef : t.adjustCapacity.entries =
      (t.entries.foldl rehashStep
        (List.replicate (growCapacity t.entries.length) Entry.empty, 0)).1 := rfl
  have hdefc : t.adjustCapacity.count =
      (t.entries.foldl rehashStep
        (List.replicate (growCapacity t.entries.length) Entry.empty, 0)).2 := rfl
  rw [hdef, hdefc]
  refine ⟨f1, f2, f3, f4, f5, ?_, ?_⟩
  · rw [f6, numLive, countW_replicate]
    simp [liveW]
  · intro k w
    rw [f7 k w]
    constructor
    · rintro (⟨i, hi⟩ | h)
      · exact absurd (hrepl i _ hi) (fun hc => Entry.noConfusion hc)
      · exact h
    · exact Or.inr

theorem lt_of_getElem?_some (es : List Entry) (i : Nat) (e : Entry)
    (h : es[i]? = some e) : i < es.length := by
  by_contra hcon
  rw [List.getElem?_eq_none (by omega)] at h
  exact Option.noConfusion h

/-- Inserting a fresh key at the reusable bucket its probe found preserves
uniqueness and all chains, establishes its own chain, and leaves every
other key's presence unchanged. -/
theorem insert_new_spec (es : List Entry) (k : String) (v : Value) (p2 : Nat)
    (hp2len : p2 < es.length)
    (hslot : es[(fnv1a k + p2) % es.length]? = some Entry.empty ∨
             es[(fnv1a k + p2) % es.length]? = some Entry.tombstone)
    (hpre : ∀ r, r < p2 → es[(fnv1a k + r) % es.length]? ≠ some Entry.empty)
    (huniq : UniqKeys es) (hchains : ChainsOK es) (habs : KeyAbsent es k) :
    UniqKeys (es.set ((fnv1a k + p2) % es.length) (Entry.live k v)) ∧
    ChainsOK (es.set ((fnv1a k + p2) % es.length) (Entry.live k v)) ∧
    Present (es.set ((fnv1a k + p2) % es.length) (Entry.live k v)) k v ∧
    (∀ (k2 : String) (w : Value), k2 ≠ k →
      (Present (es.set ((fnv1a k + p2) % es.length) (Entry.live k v)) k2 w ↔
        Present es k2 w)) ∧
    numLive (es.set ((fnv1a k + p2) % es.length) (Entry.live k v)) = numLive es + 1 := by
  have hlen : 0 < es.length := by omega
  set j := (fnv1a k + p2) % es.length with hjdef
  have hjlen : j < es.length := Nat.mod_lt _ hlen
  have hnotlive : ∀ w : Value, es[j]? ≠ some (Entry.live k w) := fun w => habs j w
  have hlne : (Entry.live k v) ≠ Entry.empty := fun hc => Entry.noConfusion hc
  refine ⟨?_, ?_, ⟨j, List.getElem?_set_self hjlen⟩, ?_, ?_⟩
  · intro i1 i2 k3 v3 w3 h1 h2
    by_cases e1 : i1 = j
    · by_cases e2 : i2 = j
      · subst e1; subst e2
        rw [List.getElem?_set_self hjlen] at h1 h2
        injection h1 with h1
        injection h2 with h2
        injection h1 with hk1 hv1
        injection h2 with hk2 hv2
        exact ⟨rfl, hv1.symm.trans hv2⟩
      · subst e1
        rw [List.getElem?_set_self hjlen] at h1
        injection h1 with h1
        injection h1 with hk1 hv1
        rw [List.getElem?_set_ne (fun hcon => e2 hcon.symm)] at h2
        exact absurd h2 (hk1 ▸ habs i2 w3)
    · by_cases e2 : i2 = j
      · subst e2
        rw [List.getElem?_set_self hjlen] at h2
        injection h2 with h2
        injection h2 with hk2 hv2
        rw [List.getElem?_set_ne (fun hcon => e1 hcon.symm)] at h1
        exact absurd h1 (hk2 ▸ habs i1 v3)
      · rw [List.getElem?_set_ne (fun hcon => e1 hcon.symm)] at h1
        rw [List.getElem?_set_ne (fun hcon => e2 hcon.symm)] at h2
        exact huniq i1 i2 k3 v3 w3 h1 h2
  · intro i k3 v3 hi
    by_cases e1 : i = j
    · subst e1
      rw [List.getElem?_set_self hjlen] at hi
      injection hi with hi
      injection hi with hk1 hv1
      subst hk1
      refine ⟨p2, ?_, ?_, ?_⟩
      · rw [List.length_set]
        exact hp2len
      · rw [List.length_set]
      · intro q hq
        rw [List.length_set, List.getElem?_set]
        by_cases hj2 : j = (fnv1a k + q) % es.length
        · rw [if_pos hj2, if_pos hjlen]
          intro hcon
          exact hlne (Option.some.inj hcon)
        · rw [if_neg hj2]
          exact hpre q hq
    · rw [List.getElem?_set_ne (fun hcon => e1 hcon.symm)] at hi
      exact chainOK_set es j _ k3 i (hchains i k3 v3 hi) hlne
  · intro k2 w hk2
    apply present_iff_set es j _ k2 hjlen
    · intro w2 hcon
      rcases hslot with h | h <;> rw [h] at hcon <;>
        exact Entry.noConfusion (Option.some.inj hcon)
    · intro w2 hcon
      injection hcon with hk _
      exact hk2 hk.symm
  · rcases hslot with h | h
    · have := countW_set liveW es j Entry.empty (Entry.live k v) h
      simp [liveW] at this
      rw [numLive, numLive]
      omega
    · have := countW_set liveW es j Entry.tombstone (Entry.live k v) h
      simp [liveW] at this
      rw [numLive, numLive]
      omega

/-- Overwriting a present key's value in place preserves everything else. -/
theorem overwrite_spec (es : List Entry) (k : String) (v w : Value) (i : Nat)
    (hi : es[i]? = some (Entry.live k w))
    (huniq : UniqKeys es) (hchains : ChainsOK es) :
    UniqKeys (es.set i (Entry.live k v)) ∧
    ChainsOK (es.set i (Entry.live k v)) ∧
    Present (es.set i (Entry.live k v)) k v ∧
    (∀ (k2 : String) (w2 : Value), k2 ≠ k →
      (Present (es.set i (Entry.live k v)) k2 w2 ↔ Present es k2 w2)) ∧
    numLive (es.set i (Entry.live k v)) = numLive es ∧
    numTomb (es.set i (Entry.live k v)) = numTomb es := by
  have hilen : i < es.length := lt_of_getElem?_some es i _ hi
  have hlne : (Entry.live k v) ≠ Entry.empty := fun hc => Entry.noConfusion hc
  refine ⟨?_, ?_, ⟨i, List.getElem?_set_self hilen⟩, ?_, ?_, ?_⟩
  · intro i1 i2 k3 v3 w3 h1 h2
    by_cases e1 : i1 = i
    · by_cases e2 : i2 = i
      · subst e1; subst e2
        rw [List.getElem?_set_self hilen] at h1 h2
        injection h1 with h1
        injection h2 with h2
        injection h1 with hk1 hv1
        injection h2 with hk2 hv2
        exact ⟨rfl, hv1.symm.trans hv2⟩
      · rw [e1, List.getElem?_set_self hilen] at h1
        injection h1 with h1
        injection h1 with hk1 hv1
        rw [List.getElem?_set_ne (fun hcon => e2 hcon.symm)] at h2
        have := huniq i2 i k3 w3 w h2 (hk1 ▸ hi)
        exact absurd this.1 e2
    · by_cases e2 : i2 = i
      · rw [e2, List.getElem?_set_self hilen] at h2
        injection h2 with h2
        injection h2 with hk2 hv2
        rw [List.getElem?_set_ne (fun hcon => e1 hcon.symm)] at h1
        have := huniq i1 i k3 v3 w h1 (hk2 ▸ hi)
        exact absurd this.1 e1
      · rw [List.getElem?_set_ne (fun hcon => e1 hcon.symm)] at h1
        rw [List.getElem?_set_ne (fun hcon => e2 hcon.symm)] at h2
        exact huniq i1 i2 k3 v3 w3 h1 h2
  · intro i2 k3 v3 h2
    by_cases e2 : i2 = i
    · rw [e2, List.getElem?_set_self hilen] at h2
      injection h2 with h2
      injection h2 with hk1 hv1
      rw [e2, ← hk1]
      exact chainOK_set es i _ k i (hchains i k w hi) hlne
    · rw [List.getElem?_set_ne (fun hcon => e2 hcon.symm)] at h2
      exact chainOK_set es i _ k3 i2 (hchains i2 k3 v3 h2) hlne
  · intro k2 w2 hk2
    apply present_iff_set es i _ k2 hilen
    · intro w3 hcon
      rw [hi] at hcon
      injection hcon with hcon
      injection hcon with hk _
      exact hk2 hk.symm
    · intro w3 hcon
      injection hcon with hk _
      exact hk2 hk.symm
  · have := countW_set liveW es i (Entry.live k w) (Entry.live k v) hi
    simp [liveW] at this
    rw [numLive, numLive]
    omega
  · have := countW_set tombW es i (Entry.live k w) (Entry.live k v) hi
    simp [tombW] at this
    rw [numTomb, numTomb]
    omega

/-- Replacing a present key's bucket with a tombstone removes exactly that
key, preserves all other chains and keys, and trades one live entry for
one tombstone. -/
theorem tombstone_spec (es : List Entry) (k : String) (w : Value) (i : Nat)
    (hi : es[i]? = some (Entry.live k w))
    (huniq : UniqKeys es) (hchains : ChainsOK es) :
    UniqKeys (es.set i Entry.tombstone) ∧
    ChainsOK (es.set i Entry.tombstone) ∧
    KeyAbsent (es.set i Entry.tombstone) k ∧
    (∀ (k2 : String) (w2 : Value), k2 ≠ k →
      (Present (es.set i Entry.tombstone) k2 w2 ↔ Present es k2 w2)) ∧
    numLive (es.set i Entry.tombstone) + 1 = numLive es ∧
    numTomb (es.set i Entry.tombstone) = numTomb es + 1 := by
  have hilen : i < es.length := lt_of_getElem?_some es i _ hi
  have htne : Entry.tombstone ≠ Entry.empty := fun hc => Entry.noConfusion hc
  refine ⟨?_, ?_, ?_, ?_, ?_, ?_⟩
  · intro i1 i2 k3 v3 w3 h1 h2
    by_cases e1 : i1 = i
    · subst e1
      rw [List.getElem?_set_self hilen] at h1
      exact absurd (Option.some.inj h1) (fun hc => Entry.noConfusion hc)
    · by_cases e2 : i2 = i
      · subst e2
        rw [List.getElem?_set_self hilen] at h2
        exact absurd (Option.some.inj h2) (fun hc => Entry.noConfusion hc)
      · rw [List.getElem?_set_ne (fun hcon => e1 hcon.symm)] at h1
        rw [List.getElem?_set_ne (fun hcon => e2 hcon.symm)] at h2
        exact huniq i1 i2 k3 v3 w3 h1 h2
  · intro i2 k3 v3 h2
    by_cases e2 : i2 = i
    · subst e2
      rw [List.getElem?_set_self hilen] at h2
      exact absurd (Option.some.inj h2) (fun hc => Entry.noConfusion hc)
    · rw [List.getElem?_set_ne (fun hcon => e2 hcon.symm)] at h2
      exact chainOK_set es i _ k3 i2 (hchains i2 k3 v3 h2) htne
  · intro i2 v2 h2
    by_cases e2 : i2 = i
    · subst e2
      rw [List.getElem?_set_self hilen] at h2
      exact Entry.noConfusion (Option.some.inj h2)
    · rw [List.getElem?_set_ne (fun hcon => e2 hcon.symm)] at h2
      have := huniq i2 i k v2 w h2 hi
      exact e2 this.1
  · intro k2 w2 hk2
    apply present_iff_set es i _ k2 hilen
    · intro w3 hcon
      rw [hi] at hcon
      injection hcon with hcon
      injection hcon with hk _
      exact hk2 hk.symm
    · intro w3 hcon
      exact Entry.noConfusion hcon
  · have := countW_set liveW es i (Entry.live k w) Entry.tombstone hi
    simp [liveW] at this
    rw [numLive, numLive]
    omega
  · have := countW_set tombW es i (Entry.live k w) Entry.tombstone hi
    simp [tombW] at this
    rw [numTomb, numTomb]
    omega

/-- After the optional growth step of `set`, the table satisfies the
structural invariants, holds exactly the keys of the original, and has
room for one more entry within the load factor. -/
theorem set_stage1 (t t1 : Table) (hInv : TableInv t)
    (ht1 : t1 = if 3 * t.entries.length < 4 * (t.count + 1) then t.adjustCapacity else t) :
    t1.count = numLive t1.entries + numTomb t1.entries ∧
    8 ≤ t1.entries.length ∧
    UniqKeys t1.entries ∧
    ChainsOK t1.entries ∧
    (∀ (k : String) (w : Value), Present t1.entries k w ↔ Present t.entries k w) ∧
    4 * (t1.count + 1) ≤ 3 * t1.entries.length := by
  by_cases hg : 3 * t.entries.length < 4 * (t.count + 1)
  · rw [if_pos hg] at ht1
    subst ht1
    obtain ⟨a1, a2, a3, a4, a5, a6, a7⟩ := adjustCapacity_spec t hInv
    have hlive_le : numLive t.entries ≤ t.count := by
      have := hInv.count_eq
      omega
    have hload := hInv.load
    refine ⟨by omega, ?_, a4, a5, a7, ?_⟩
    · rw [a1, growCapacity]
      split <;> omega
    · rw [a2, a6, a1, growCapacity]
      rcases hInv.cap8 with h8 | h8 <;> split <;> omega
  · rw [if_neg hg] at ht1
    rw [ht1]
    have h8 : 8 ≤ t.entries.length := by
      rcases hInv.cap8 with h | h
      · omega
      · exact h
    exact ⟨hInv.count_eq, h8, hInv.uniq, hInv.chains,
      fun k w => Iff.rfl, by omega⟩

/-- The probe-and-write phase of `set`: correctness of the returned flag,
the written binding, preservation of other keys, and the invariant. -/
theorem setIn_spec (t1 : Table) (k : String) (v : Value)
    (hce : t1.count = numLive t1.entries + numTomb t1.entries)
    (hload1 : 4 * (t1.count + 1) ≤ 3 * t1.entries.length)
    (hcap : 8 ≤ t1.entries.length)
    (huniq : UniqKeys t1.entries)
    (hchains : ChainsOK t1.entries) :
    TableInv (t1.setIn k v).1 ∧
    ((t1.setIn k v).2 = true ↔ KeyAbsent t1.entries k) ∧
    Present (t1.setIn k v).1.entries k v ∧
    (∀ (k2 : String) (w : Value), k2 ≠ k →
      (Present (t1.setIn k v).1.entries k2 w ↔ Present t1.entries k2 w)) := by
  have hroom : numLive t1.entries + numTomb t1.entries < t1.entries.length := by
    omega
  rcases present_or_absent t1.entries k with ⟨i, w, hi⟩ | habs
  · have hfind := findEntry_found_at t1.entries k w i hi (hchains i k w hi)
      (fun j w2 hj => (huniq j i k w2 w hj hi).1)
    have hred : t1.setIn k v =
        (⟨t1.entries.set i (Entry.live k v), t1.count⟩, false) := by
      rw [Table.setIn, hfind]
    rw [hred]
    obtain ⟨o1, o2, o3, o4, o5, o6⟩ := overwrite_spec t1.entries k v w i hi huniq hchains
    refine ⟨⟨?_, ?_, ?_, o1, o2⟩, ?_, o3, fun k2 w2 hk2 => o4 k2 w2 hk2⟩
    · show t1.count = numLive (t1.entries.set i (Entry.live k v)) +
        numTomb (t1.entries.set i (Entry.live k v))
      rw [o5, o6]
      exact hce
    · show 4 * t1.count ≤ 3 * (t1.entries.set i (Entry.live k v)).length
      rw [List.length_set]
      omega
    · show (t1.entries.set i (Entry.live k v)).length = 0 ∨
        8 ≤ (t1.entries.set i (Entry.live k v)).length
      rw [List.length_set]
      right
      exact hcap
    · constructor
      · intro hcon
        exact Bool.noConfusion hcon
      · intro ha
        exact absurd hi (ha i w)
  · obtain ⟨p2, hp2len, hfind, hslot, hpre⟩ := findEntry_absent_of t1.entries k habs hroom
    obtain ⟨n1, n2, n3, n4, n5⟩ :=
      insert_new_spec t1.entries k v p2 hp2len hslot hpre huniq hchains habs
    have hlive_ne : numLive (t1.entries.set ((fnv1a k + p2) % t1.entries.length)
        (Entry.live k v)) = numLive t1.entries + 1 := n5
    rcases hslot with hsl | hsl
    · have hred : t1.setIn k v =
          (⟨t1.entries.set ((fnv1a k + p2) % t1.entries.length) (Entry.live k v),
            t1.count + 1⟩, true) := by
        rw [Table.setIn, hfind]
        simp [hsl]
      rw [hred]
      have ht := countW_set tombW t1.entries _ Entry.empty (Entry.live k v) hsl
      simp [tombW] at ht
      have ht2 : numTomb (t1.entries.set ((fnv1a k + p2) % t1.entries.length)
          (Entry.live k v)) = numTomb t1.entries := ht
      refine ⟨⟨?_, ?_, ?_, n1, n2⟩, ?_, n3, fun k2 w2 hk2 => n4 k2 w2 hk2⟩
      · show t1.count + 1 = numLive (t1.entries.set ((fnv1a k + p2) % t1.entries.length)
          (Entry.live k v)) + numTomb (t1.entries.set ((fnv1a k + p2) % t1.entries.length)
          (Entry.live k v))
        rw [hlive_ne, ht2]
        omega
      · show 4 * (t1.count + 1) ≤
          3 * (t1.entries.set ((fnv1a k + p2) % t1.entries.length) (Entry.live k v)).length
        rw [List.length_set]
        omega
      · show (t1.entries.set ((fnv1a k + p2) % t1.entries.length) (Entry.live k v)).length = 0 ∨
          8 ≤ (t1.entries.set ((fnv1a k + p2) % t1.entries.length) (Entry.live k v)).length
        rw [List.length_set]
        right
        exact hcap
      · exact ⟨fun _ => habs, fun _ => rfl⟩
    · have hred : t1.setIn k v =
          (⟨t1.entries.set ((fnv1a k + p2) % t1.entries.length) (Entry.live k v),
            t1.count⟩, true) := by
        rw [Table.setIn, hfind]
        simp [hsl]
      rw [hred]
      have ht := countW_set tombW t1.entries _ Entry.tombstone (Entry.live k v) hsl
      simp [tombW] at ht
      have ht2 : numTomb (t1.entries.set ((fnv1a k + p2) % t1.entries.length)
          (Entry.live k v)) + 1 = numTomb t1.entries := ht
      refine ⟨⟨?_, ?_, ?_, n1, n2⟩, ?_, n3, fun k2 w2 hk2 => n4 k2 w2 hk2⟩
      · show t1.count = numLive (t1.entries.set ((fnv1a k + p2) % t1.entries.length)
          (Entry.live k v)) + numTomb (t1.entries.set ((fnv1a k + p2) % t1.entries.length)
          (Entry.live k v))
        rw [hlive_ne]
        omega
      · show 4 * t1.count ≤
          3 * (t1.entries.set ((fnv1a k + p2) % t1.entries.length) (Entry.live k v)).length
        rw [List.length_set]
        omega
      · show (t1.entries.set ((fnv1a k + p2) % t1.entries.length) (Entry.live k v)).length = 0 ∨
          8 ≤ (t1.entries.set ((fnv1a k + p2) % t1.entries.length) (Entry.live k v)).length
        rw [List.length_set]
        right
        exact hcap
      · exact ⟨fun _ => habs, fun _ => rfl⟩

theorem keyAbsent_iff (es : List Entry) (k : String) :
    KeyAbsent es k ↔ ∀ w, ¬ Present es k w := by
  constructor
  · rintro h w ⟨i, hi⟩
    exact h i w hi
  · intro h i v hi
    exact h v ⟨i, hi⟩

/-- Full correctness of `set` under the invariant: the invariant is
preserved, the returned flag is "the key was absent" (equivalently,
`get` returned `none`), the key now maps to the new value, and every
other key is untouched. -/
theorem set_spec (t : Table) (k : String) (v : Value) (hInv : TableInv t) :
    TableInv (t.set k v).1 ∧
    ((t.set k v).2 = true ↔ t.get k = none) ∧
    (t.set k v).1.get k = some v ∧
    (∀ k2, k2 ≠ k → (t.set k v).1.get k2 = t.get k2) := by
  obtain ⟨s1, s2, s3, s4, s5, s6⟩ := set_stage1 t
    (if 3 * t.entries.length < 4 * (t.count + 1) then t.adjustCapacity else t) hInv rfl
  obtain ⟨m1, m2, m3, m4⟩ := setIn_spec
    (if 3 * t.entries.length < 4 * (t.count + 1) then t.adjustCapacity else t)
    k v s1 s6 s2 s3 s4
  have hdef : t.set k v = Table.setIn
    (if 3 * t.entries.length < 4 * (t.count + 1) then t.adjustCapacity else t) k v := rfl
  rw [hdef]
  refine ⟨m1, ?_, ?_, ?_⟩
  · rw [m2]
    constructor
    · intro habs1
      apply get_absent t k hInv
      rw [keyAbsent_iff] at habs1 ⊢
      intro w hw
      exact habs1 w ((s5 k w).mpr hw)
    · intro hget
      rw [keyAbsent_iff]
      intro w hw
      have hw2 := (s5 k w).mp hw
      rw [get_present t k w _ hInv hw2.choose_spec] at hget
      exact Option.noConfusion hget
  · obtain ⟨i, hi⟩ := m3
    exact get_present _ k v i m1 hi
  · intro k2 hk2
    rcases present_or_absent t.entries k2 with ⟨i, w, hi⟩ | habs
    · have h1 : t.get k2 = some w := get_present t k2 w i hInv hi
      have h2 := (m4 k2 w hk2).mpr ((s5 k2 w).mpr ⟨i, hi⟩)
      obtain ⟨i2, hi2⟩ := h2
      rw [h1, get_present _ k2 w i2 m1 hi2]
    · have h1 : t.get k2 = none := get_absent t k2 hInv habs
      have h2 : KeyAbsent (Table.setIn
          (if 3 * t.entries.length < 4 * (t.count + 1) then t.adjustCapacity else t)
          k v).1.entries k2 := by
        rw [keyAbsent_iff]
        intro w hw
        have := (s5 k2 w).mp ((m4 k2 w hk2).mp hw)
        rw [keyAbsent_iff] at habs
        exact habs w this
      rw [h1, get_absent _ k2 m1 h2]

/-- Full correctness of `delete` under the invariant: the invariant is
preserved, the returned flag is "the key was present", the key is gone
afterwards, and every other key is untouched. -/
theorem delete_spec (t : Table) (k : String) (hInv : TableInv t) :
    TableInv (t.delete k).1 ∧
    ((t.delete k).2 = true ↔ (t.get k).isSome = true) ∧
    (t.delete k).1.get k = none ∧
    (∀ k2, k2 ≠ k → (t.delete k).1.get k2 = t.get k2) := by
  by_cases hcnt : t.count = 0
  · have hdel : t.delete k = (t, false) := by rw [Table.delete, if_pos hcnt]
    have hget : t.get k = none := by rw [Table.get, if_pos hcnt]
    rw [hdel]
    refine ⟨hInv, ?_, hget, fun k2 _ => rfl⟩
    rw [hget]
    simp
  · rcases present_or_absent t.entries k with ⟨i, w, hi⟩ | habs
    · have hfind := findEntry_found_at t.entries k w i hi (hInv.chains i k w hi)
        (fun j w2 hj => (hInv.uniq j i k w2 w hj hi).1)
      have hdel : t.delete k = (⟨t.entries.set i Entry.tombstone, t.count⟩, true) := by
        rw [Table.delete, if_neg hcnt, hfind]
      rw [hdel]
      obtain ⟨d1, d2, d3, d4, d5, d6⟩ :=
        tombstone_spec t.entries k w i hi hInv.uniq hInv.chains
      have hce := hInv.count_eq
      have hInv2 : TableInv ⟨t.entries.set i Entry.tombstone, t.count⟩ := by
        refine ⟨?_, ?_, ?_, d1, d2⟩
        · show t.count = numLive (t.entries.set i Entry.tombstone) +
            numTomb (t.entries.set i Entry.tombstone)
          omega
        · show 4 * t.count ≤ 3 * (t.entries.set i Entry.tombstone).length
          rw [List.length_set]
          exact hInv.load
        · show (t.entries.set i Entry.tombstone).length = 0 ∨
            8 ≤ (t.entries.set i Entry.tombstone).length
          rw [List.length_set]
          exact hInv.cap8
      refine ⟨hInv2, ?_, ?_, ?_⟩
      · constructor
        · intro _
          rw [get_present t k w i hInv hi]
          rfl
        · intro _
          rfl
      · exact get_absent _ k hInv2 d3
      · intro k2 hk2
        rcases present_or_absent t.entries k2 with ⟨i2, w2, hi2⟩ | habs2
        · have h1 : t.get k2 = some w2 := get_present t k2 w2 i2 hInv hi2
          obtain ⟨i3, hi3⟩ := (d4 k2 w2 hk2).mpr ⟨i2, hi2⟩
          rw [h1, get_present _ k2 w2 i3 hInv2 hi3]
        · have h1 : t.get k2 = none := get_absent t k2 hInv habs2
          have h2 : KeyAbsent (t.entries.set i Entry.tombstone) k2 := by
            rw [keyAbsent_iff]
            intro w3 hw3
            rw [keyAbsent_iff] at habs2
            exact habs2 w3 ((d4 k2 w3 hk2).mp hw3)
          rw [h1, get_absent _ k2 hInv2 h2]
    · have hroom : numLive t.entries + numTomb t.entries < t.entries.length := by
        have h1 := hInv.count_eq
        have h2 := hInv.load
        omega
      obtain ⟨p2, _, hfind, _, _⟩ := findEntry_absent_of t.entries k habs hroom
      have hdel : t.delete k = (t, false) := by
        rw [Table.delete, if_neg hcnt, hfind]
      have hget : t.get k = none := get_absent t k hInv habs
      rw [hdel]
      refine ⟨hInv, ?_, hget, fun k2 _ => rfl⟩
      rw [hget]
      simp

/-- A fresh table satisfies the invariant. -/
theorem tableInv_new : TableInv Table.new := by
  refine ⟨rfl, by simp [Table.new], Or.inl rfl, ?_, ?_⟩
  · intro i j k v w h1 _
    simp [Table.new] at h1
  · intro i k v h1
    simp [Table.new] at h1

/-- A fresh table maps every key to nothing. -/
theorem new_get_none (k : String) : Table.new.get k = none := by
  simp [Table.get, Table.new]

set_option maxHeartbeats 1000000 in
/-- C3: the hash table behaves as a map with insertion-reporting: starting
from the fresh (invariant-satisfying, everywhere-`none`) table, and from
any table satisfying the invariant, `set k v` preserves the invariant,
returns true exactly when `get k` was `none` (so the first insertion of a
key returns true and every later set of that key returns false until it
is deleted, after which a fresh set returns true again), afterwards
`get k` is the most recently set value and all other keys are unchanged;
`delete k` preserves the invariant, returns true exactly when the key was
present, leaves `get k = none`, and leaves all other keys unchanged. -/
theorem table_roundtrip (t : Table) (k : String) (v : Value) (hInv : TableInv t) :
    TableInv Table.new ∧ Table.new.get k = none ∧
    TableInv (t.set k v).1 ∧
    ((t.set k v).2 = true ↔ t.get k = none) ∧
    (t.set k v).1.get k = some v ∧
    (∀ k2, k2 ≠ k → (t.set k v).1.get k2 = t.get k2) ∧
    TableInv (t.delete k).1 ∧
    ((t.delete k).2 = true ↔ (t.get k).isSome = true) ∧
    (t.delete k).1.get k = none ∧
    (∀ k2, k2 ≠ k → (t.delete k).1.get k2 = t.get k2) := by
  obtain ⟨a1, a2, a3, a4⟩ := set_spec t k v hInv
  obtain ⟨b1, b2, b3, b4⟩ := delete_spec t k hInv
  exact ⟨tableInv_new, new_get_none k, a1, a2, a3, a4, b1, b2, b3, b4⟩

set_option maxHeartbeats 4000000 in
set_option maxRecDepth 100000 in
/-- C3 witness: the exact operation sequence of `test::table` — a fresh
set returns true, a second set of the same key returns false, `get` sees
the newer value, the first delete returns true, the second returns false,
and a set after the delete returns true again. -/
theorem table_roundtrip_witness :
    (Table.new.set "bagel" (Value.number ⟨420, 1⟩)).2 = true ∧
    ((Table.new.set "bagel" (Value.number ⟨420, 1⟩)).1.set "bagel"
      (Value.number ⟨69, 1⟩)).2 = false ∧
    ((Table.new.set "bagel" (Value.number ⟨420, 1⟩)).1.set "bagel"
      (Value.number ⟨69, 1⟩)).1.get "bagel" = some (Value.number ⟨69, 1⟩) ∧
    (((Table.new.set "bagel" (Value.number ⟨420, 1⟩)).1.set "bagel"
      (Value.number ⟨69, 1⟩)).1.delete "bagel").2 = true ∧
    ((((Table.new.set "bagel" (Value.number ⟨420, 1⟩)).1.set "bagel"
      (Value.number ⟨69, 1⟩)).1.delete "bagel").1.delete "bagel").2 = false := by
  obtain ⟨_, hn, a1, a2, a3, _, _, _, _, _⟩ :=
    table_roundtrip Table.new "bagel" (Value.number ⟨420, 1⟩) tableInv_new
  obtain ⟨_, _, b1, b2, b3, _, _, _, _, _⟩ :=
    table_roundtrip (Table.new.set "bagel" (Value.number ⟨420, 1⟩)).1 "bagel"
      (Value.number ⟨69, 1⟩) a1
  obtain ⟨_, _, _, _, _, _, c1, c2, c3, _⟩ :=
    table_roundtrip ((Table.new.set "bagel" (Value.number ⟨420, 1⟩)).1.set "bagel"
      (Value.number ⟨69, 1⟩)).1 "bagel" (Value.number ⟨69, 1⟩) b1
  obtain ⟨_, _, _, _, _, _, _, d2, _, _⟩ :=
    table_roundtrip (((Table.new.set "bagel" (Value.number ⟨420, 1⟩)).1.set "bagel"
      (Value.number ⟨69, 1⟩)).1.delete "bagel").1 "bagel" (Value.number ⟨69, 1⟩) c1
  refine ⟨a2.mpr hn, ?_, b3, ?_, ?_⟩
  · cases hb : ((Table.new.set "bagel" (Value.number ⟨420, 1⟩)).1.set "bagel"
      (Value.number ⟨69, 1⟩)).2 with
    | false => rfl
    | true =>
      have := b2.mp hb
      rw [a3] at this
      exact Option.noConfusion this
  · apply c2.mpr
    rw [b3]
    rfl
  · cases hd : ((((Table.new.set "bagel" (Value.number ⟨420, 1⟩)).1.set "bagel"
      (Value.number ⟨69, 1⟩)).1.delete "bagel").1.delete "bagel").2 with
    | false => rfl
    | true =>
      have := d2.mp hd
      rw [c3] at this
      exact Bool.noConfusion this

/-- C10 witness: a missing file panics; a file holding an uncompilable
program panics. -/
theorem run_file_panics_witness :
    run_file (fun _ => none) "test.lox" 10 = .panicked ∧
    run_file (fun _ => some srcBadLine) "test.lox" 10 = .panicked :=
  ⟨(run_file_panics (fun _ => none) "test.lox" 10).1 rfl,
    (run_file_panics (fun _ => some srcBadLine) "test.lox" 10).2 srcBadLine rfl
      (by decide)⟩

end Loxide
